import Mathlib

/-!
# Verification of the DS9 region-file parser/serializer core

The repository implements the DS9 region-format parser and serializer
(`regions.io.ds9`) together with a generic `RegionList` container
(`regions/core/regionlist.py`).  The DS9 parser/serializer module itself is
not present in the source tree (only its test suite is), so the parser,
metadata resolver, region factory and serializer are modelled from the
specification; `RegionList` is embedded directly from
`src/regions/core/regionlist.py`.

All text is modelled as `List Char`; numeric coordinate values are exact
rationals `ℚ`.
-/

set_option maxRecDepth 4096

namespace DS9

/-! ## Character utilities -/

/-- Whitespace characters recognized by the tokenizer. -/
def isWS (c : Char) : Bool := c = ' ' || c = '\t' || c = '\r'

/-- Decimal digit test. -/
def isDig (c : Char) : Bool := '0' ≤ c && c ≤ '9'

/-- The double-quote character. -/
def quoteChar : Char := Char.ofNat 34

/-- The single-quote (arcminute suffix) character. -/
def arcminChar : Char := Char.ofNat 39

/-- The opening curly brace used by DS9 text attributes. -/
def braceOpen : Char := Char.ofNat 123

/-- The closing curly brace used by DS9 text attributes. -/
def braceClose : Char := Char.ofNat 125

/-- Lowercase a single ASCII character. -/
def lowerChar (c : Char) : Char :=
  if 'A' ≤ c && c ≤ 'Z' then Char.ofNat (c.toNat + 32) else c

/-- Lowercase a character list. -/
def lowerChars (cs : List Char) : List Char := cs.map lowerChar

/-- Drop leading whitespace. -/
def trimL : List Char → List Char
  | [] => []
  | c :: cs => if isWS c then trimL cs else c :: cs

/-- Drop trailing whitespace. -/
def trimR (cs : List Char) : List Char := (trimL cs.reverse).reverse

/-- Drop leading and trailing whitespace. -/
def trim (cs : List Char) : List Char := trimR (trimL cs)

/-- Split a character list at every occurrence of `sep`. -/
def splitOnC (sep : Char) : List Char → List (List Char)
  | [] => [[]]
  | c :: cs =>
    let r := splitOnC sep cs
    if c = sep then [] :: r
    else match r with
      | [] => [[c]]
      | t :: ts => (c :: t) :: ts

/-- Split at the first occurrence of `sep`, if any. -/
def splitFirst (sep : Char) : List Char → Option (List Char × List Char)
  | [] => none
  | c :: cs =>
    if c = sep then some ([], cs)
    else match splitFirst sep cs with
      | none => none
      | some (a, b) => some (c :: a, b)

/-- Longest prefix of characters satisfying `p`, with the remainder. -/
def spanP (p : Char → Bool) : List Char → List Char × List Char
  | [] => ([], [])
  | c :: cs =>
    if p c then
      let (a, b) := spanP p cs
      (c :: a, b)
    else ([], c :: cs)

/-- Whether `pre` is a prefix of `cs`. -/
def startsWith : List Char → List Char → Bool
  | [], _ => true
  | _ :: _, [] => false
  | p :: ps, c :: cs => p = c && startsWith ps cs

/-- Whether `needle` occurs as a contiguous substring of `hay`. -/
def containsSub (needle : List Char) : List Char → Bool
  | [] => startsWith needle []
  | c :: cs => startsWith needle (c :: cs) || containsSub needle cs

/-! ## Decimal digits and fixed-point formatting -/

/-- The decimal digit character for `d < 10`. -/
def digitChar (d : Nat) : Char := Char.ofNat (48 + d)

/-- Decimal digit characters of `n`, most significant first, by structural
recursion on a fuel bound (any fuel with `n < 10 ^ fuel` gives the digits). -/
def natDigitsF : Nat → Nat → List Char
  | 0, _ => []
  | fuel + 1, n =>
    if n < 10 then [digitChar n]
    else natDigitsF fuel (n / 10) ++ [digitChar (n % 10)]

/-- Decimal digit characters of a natural number, most significant first. -/
def natDigits (n : Nat) : List Char := natDigitsF (n + 1) n

/-- Numeric value of one digit character. -/
def digVal (c : Char) : Nat := c.toNat - 48

/-- Value of a digit string, most significant first. -/
def digitsVal (cs : List Char) : Nat := cs.foldl (fun a c => 10 * a + digVal c) 0

/-- Digits of `b` left-padded with zeros to width `p`. -/
def padFrac (p : Nat) (b : Nat) : List Char :=
  List.replicate (p - (natDigits b).length) '0' ++ natDigits b

/-- Fixed-point rendering of the scaled integer `m` with `p` decimal places
(`m` is the value multiplied by `10 ^ p`). -/
def fmtScaled (m : ℤ) (p : Nat) : List Char :=
  (if m < 0 then ['-'] else []) ++
    (if p = 0 then natDigits m.natAbs
     else natDigits (m.natAbs / 10 ^ p) ++ '.' :: padFrac p (m.natAbs % 10 ^ p))

/-- Round half away from zero to an integer. -/
def roundHalf (x : ℚ) : ℤ :=
  if 0 ≤ x then ⌊x + 1 / 2⌋ else -⌊-x + 1 / 2⌋

/-- Modelled from the spec: printf-style fixed-point formatting
(`'.pf'` numeric format spec) of a rational value with `p` decimal places,
as used by the serializer's "quantity formatting with precision spec"
external capability. -/
def fmtFixed (q : ℚ) (p : Nat) : List Char := fmtScaled (roundHalf (q * 10 ^ p)) p

/-- Parse an optional numeric sign, returning `true` for negative. -/
def stripNumSign : List Char → Bool × List Char
  | [] => (false, [])
  | c :: cs =>
    if c = '-' then (true, cs)
    else if c = '+' then (false, cs)
    else (false, c :: cs)

/-- Parse an unsigned decimal numeral (integer part, optional fractional
part) into an exact rational. -/
def parseUnsigned (cs : List Char) : Option ℚ :=
  let (ids, rest) := spanP isDig cs
  match rest with
  | [] => if ids.isEmpty then none else some (digitsVal ids : ℚ)
  | '.' :: fs =>
    let (fds, rest2) := spanP isDig fs
    if rest2.isEmpty && !(ids.isEmpty && fds.isEmpty) then
      some ((digitsVal ids : ℚ) + (digitsVal fds : ℚ) / 10 ^ fds.length)
    else none
  | _ => none

/-- Modelled from the spec: parse a decimal numeral (optional sign, integer
part, optional fractional part) into an exact rational. -/
def parseRat (cs : List Char) : Option ℚ :=
  let (neg, cs1) := stripNumSign cs
  (parseUnsigned cs1).map (fun v => if neg then -v else v)

/-! ## Frames, units, quantities -/

/-- Modelled from the spec: the coordinate frames tracked by the parser
state machine (sky frames plus the two pixel frames). -/
inductive Frame
  | fk5 | fk4 | icrs | galactic | image | physical
deriving DecidableEq

/-- Sky frames interpret bare numbers as degrees; pixel frames as pixels. -/
def Frame.isSky : Frame → Bool
  | .fk5 | .fk4 | .icrs | .galactic => true
  | .image | .physical => false

/-- Frames whose first (RA-like) coordinate reads colon-separated triplets as
sexagesimal hours; Galactic reads every triplet as degrees. -/
def Frame.raAsHours : Frame → Bool
  | .fk5 | .fk4 | .icrs => true
  | _ => false

/-- The canonical lowercase name of each frame. -/
def Frame.name : Frame → List Char
  | .fk5 => ("fk5").data
  | .fk4 => ("fk4").data
  | .icrs => ("icrs").data
  | .galactic => ("galactic").data
  | .image => ("image").data
  | .physical => ("physical").data

/-- Modelled from the spec: case-normalized frame-name lookup
(`j2000` is the DS9 alias for `fk5`). Input must already be lowercased. -/
def frameOfChars (cs : List Char) : Option Frame :=
  if cs = ("fk5").data then some .fk5
  else if cs = ("fk4").data then some .fk4
  else if cs = ("icrs").data then some .icrs
  else if cs = ("galactic").data then some .galactic
  else if cs = ("image").data then some .image
  else if cs = ("physical").data then some .physical
  else if cs = ("j2000").data then some .fk5
  else none

/-- Units a coordinate token can resolve to. -/
inductive CUnit
  | deg | rad | hour | arcmin | arcsec | pix
deriving DecidableEq

/-- A resolved coordinate value: exact number plus unit. -/
structure Quantity where
  value : ℚ
  unit : CUnit
deriving DecidableEq

/-- Degrees represented by an angular quantity (`none` for pixel or radian
quantities: radians are irrational in degrees and pixels are not angles). -/
def Quantity.toDeg : Quantity → Option ℚ
  | ⟨v, .deg⟩ => some v
  | ⟨v, .hour⟩ => some (15 * v)
  | ⟨v, .arcmin⟩ => some (v / 60)
  | ⟨v, .arcsec⟩ => some (v / 3600)
  | _ => none

/-- Pixel value of a pixel quantity. -/
def Quantity.toPix : Quantity → Option ℚ
  | ⟨v, .pix⟩ => some v
  | _ => none

/-! ## Metadata -/

/-- A metadata value: raw string, or a normalized boolean. -/
inductive MetaVal
  | str (s : List Char)
  | bool (b : Bool)
deriving DecidableEq

/-- Metadata: ordered key/value pairs. -/
abbrev Meta := List (List Char × MetaVal)

/-- First value stored under key `k`. -/
def metaLookup (k : List Char) : Meta → Option MetaVal
  | [] => none
  | kv :: m => if kv.1 = k then some kv.2 else metaLookup k m

/-- Replace the value under `k` in place, or append the pair if absent. -/
def updateMeta (m : Meta) (k : List Char) (v : MetaVal) : Meta :=
  if m.any (fun kv => kv.1 = k) then
    m.map (fun kv => if kv.1 = k then (k, v) else kv)
  else m ++ [(k, v)]

/-- Modelled from the spec: the Metadata Resolver — later pairs override
earlier ones per key; unset keys inherit from `g`. -/
def mergeMeta (g l : Meta) : Meta :=
  l.foldl (fun acc kv => updateMeta acc kv.1 kv.2) g

/-- The `include` metadata key. -/
def inclKey : List Char := ("include").data

/-- Modelled from the spec: boolean-valued keys such as `include` written as
`0`/`1` are normalized to booleans; other values stay raw strings. -/
def normalizeVal (k : List Char) (v : List Char) : MetaVal :=
  if k = inclKey then
    if v = ("1").data then .bool true
    else if v = ("0").data then .bool false
    else .str v
  else .str v

/-- Inclusion default read from merged metadata: an explicit boolean wins,
anything else (or absence) means included. -/
def metaIncl (m : Meta) : Bool :=
  match metaLookup inclKey m with
  | some (.bool b) => b
  | _ => true

/-! ## Metadata tokenization (quote- and brace-aware) -/

/-- Scanner mode while splitting a metadata block on spaces. -/
inductive ScanMode
  | plain | quoted | braced
deriving DecidableEq

/-- Modelled from the spec: quote-aware splitting of a `key=value ...` block
into space-separated tokens; text inside double quotes or curly braces is
kept together (delimiters retained for later stripping). -/
def metaTokensAux : ScanMode → List Char → List Char → List (List Char)
  | _, cur, [] => if cur.isEmpty then [] else [cur.reverse]
  | .plain, cur, c :: cs =>
    if isWS c then
      if cur.isEmpty then metaTokensAux .plain [] cs
      else cur.reverse :: metaTokensAux .plain [] cs
    else if c = quoteChar then metaTokensAux .quoted (c :: cur) cs
    else if c = braceOpen then metaTokensAux .braced (c :: cur) cs
    else metaTokensAux .plain (c :: cur) cs
  | .quoted, cur, c :: cs =>
    if c = quoteChar then metaTokensAux .plain (c :: cur) cs
    else metaTokensAux .quoted (c :: cur) cs
  | .braced, cur, c :: cs =>
    if c = braceClose then metaTokensAux .plain (c :: cur) cs
    else metaTokensAux .braced (c :: cur) cs

/-- Space-separated tokens of a metadata block. -/
def metaTokens (cs : List Char) : List (List Char) := metaTokensAux .plain [] cs

/-- Strip a surrounding pair of quotes or braces from a raw value. -/
def stripDelims (v : List Char) : List Char :=
  match v with
  | [] => []
  | c :: cs =>
    if c = quoteChar then
      (if cs.getLast? = some quoteChar then cs.dropLast else c :: cs)
    else if c = braceOpen then
      (if cs.getLast? = some braceClose then cs.dropLast else c :: cs)
    else c :: cs

/-- Modelled from the spec: group metadata tokens into `key=value` pairs; a
token without `=` continues the previous pair's value (multi-token values
such as `dashlist=8 3`); stray tokens before any pair are dropped. -/
def groupPairsAux (cur : Option (List Char × List Char)) :
    List (List Char) → List (List Char × List Char)
  | [] => (match cur with | none => [] | some kv => [kv])
  | t :: ts =>
    match splitFirst '=' t with
    | some kv2 =>
      match cur with
      | none => groupPairsAux (some kv2) ts
      | some kv => kv :: groupPairsAux (some kv2) ts
    | none =>
      match cur with
      | none => groupPairsAux none ts
      | some kv => groupPairsAux (some (kv.1, kv.2 ++ ' ' :: t)) ts

/-- Group metadata tokens into raw `key=value` pairs. -/
def groupPairsJoin (ts : List (List Char)) : List (List Char × List Char) :=
  groupPairsAux none ts

/-- Modelled from the spec: parse a metadata block into normalized key/value
pairs (quotes/braces stripped, boolean keys normalized). -/
def parsePairs (cs : List Char) : Meta :=
  (groupPairsJoin (metaTokens cs)).map
    (fun kv => (kv.1, normalizeVal kv.1 (stripDelims kv.2)))

/-! ## Region types and shapes -/

/-- Modelled from the spec: the fixed table of supported region types. -/
inductive RegionType
  | circle | ellipse | box | polygon | line | point | annulus | text
deriving DecidableEq

/-- Lowercase keyword of each supported region type. -/
def RegionType.name : RegionType → List Char
  | .circle => ("circle").data
  | .ellipse => ("ellipse").data
  | .box => ("box").data
  | .polygon => ("polygon").data
  | .line => ("line").data
  | .point => ("point").data
  | .annulus => ("annulus").data
  | .text => ("text").data

/-- Keyword lookup for supported region types (input already lowercased). -/
def regionTypeOf (cs : List Char) : Option RegionType :=
  if cs = ("circle").data then some .circle
  else if cs = ("ellipse").data then some .ellipse
  else if cs = ("box").data then some .box
  else if cs = ("polygon").data then some .polygon
  else if cs = ("line").data then some .line
  else if cs = ("point").data then some .point
  else if cs = ("annulus").data then some .annulus
  else if cs = ("text").data then some .text
  else none

/-- Modelled from the spec: composite region types with no single-shape
equivalent, explicitly unsupported. -/
def compositeNames : List (List Char) :=
  [("panda").data, ("epanda").data, ("bpanda").data]

/-- Modelled from the spec: coordinate arity expected by each region type
(circle = center(2) + radius(1), etc.; polygon takes an even number of at
least six values). -/
def arityOk : RegionType → Nat → Bool
  | .circle, n => n = 3
  | .ellipse, n => n = 5
  | .box, n => n = 5
  | .polygon, n => n % 2 = 0 && 6 ≤ n
  | .line, n => n = 4
  | .point, n => n = 2
  | .annulus, n => n = 4
  | .text, n => n = 2

/-- Radius-like argument positions of a region type (the arguments rendered
in the serializer's radius unit for sky regions). -/
def isRadiusArg : RegionType → Nat → Bool
  | .circle, i => i = 2
  | .ellipse, i => i = 2 || i = 3
  | .box, i => i = 2 || i = 3
  | .annulus, i => i = 2 || i = 3
  | _, _ => false

/-- Modelled from the spec: one parsed region record — type tag, coordinate
values, frame, metadata, inclusion flag, composite marker, comment. -/
structure Shape where
  regionType : RegionType
  coordsys : Frame
  coord : List Quantity
  meta : Meta
  incl : Bool
  composite : Bool
  comment : Option (List Char)
deriving DecidableEq

/-! ## Unit disambiguation -/

/-- Parse the body of a sexagesimal triplet `a:b:c` (sign on the first
component applies to the whole value). -/
def parseSexa (cs : List Char) : Option ℚ :=
  match (splitOnC ':' cs).map trim with
  | [a, b, c] => do
    let qa ← parseRat a
    let qb ← parseRat b
    let qc ← parseRat c
    let neg := (stripNumSign a).1
    let mag := |qa| + qb / 60 + qc / 3600
    pure (if neg then -mag else mag)
  | _ => none

/-- Parse an explicit `XhYmZs` or `XdYmZs` token body given its separator
letters, returning the combined magnitude with the sign of `X`. -/
def parseHDMS (h1 m1 s1 : Char) (cs : List Char) : Option ℚ := do
  let (x, r1) ← splitFirst h1 cs
  let (y, r2) ← splitFirst m1 r1
  let (z, r3) ← splitFirst s1 r2
  if r3.isEmpty then
    let qx ← parseRat x
    let qy ← parseRat y
    let qz ← parseRat z
    let neg := (stripNumSign x).1
    let mag := |qx| + qy / 60 + qz / 3600
    pure (if neg then -mag else mag)
  else none

/-- Modelled from the spec: unit disambiguation — a pure function of token
text, active frame, and argument position. A unit suffix is authoritative;
bare numbers default to pixels in pixel frames and degrees in sky frames;
colon triplets are sexagesimal (RA as hours in equatorial frames, degrees
otherwise). -/
def parseCoordToken (fr : Frame) (idx : Nat) (tok : List Char) : Option Quantity :=
  let t := trim tok
  if t.isEmpty then none
  else if t.contains ':' then
    if fr.isSky then
      (parseSexa t).map (fun v =>
        ⟨v, if fr.raAsHours && idx = 0 then .hour else .deg⟩)
    else none
  else if t.contains 'h' then (parseHDMS 'h' 'm' 's' t).map (⟨·, .hour⟩)
  else if t.contains 'm' then (parseHDMS 'd' 'm' 's' t).map (⟨·, .deg⟩)
  else
    match t.getLast? with
    | none => none
    | some c =>
      if c = 'd' then (parseRat t.dropLast).map (⟨·, .deg⟩)
      else if c = 'r' then (parseRat t.dropLast).map (⟨·, .rad⟩)
      else if c = 'p' || c = 'i' then (parseRat t.dropLast).map (⟨·, .pix⟩)
      else if c = quoteChar then (parseRat t.dropLast).map (⟨·, .arcsec⟩)
      else if c = arcminChar then (parseRat t.dropLast).map (⟨·, .arcmin⟩)
      else (parseRat t).map (⟨·, if fr.isSky then .deg else .pix⟩)

/-! ## Shape-line parsing -/

/-- Outcome of parsing one region-declaration line. -/
inductive ShapeOut
  | ok (s : Shape)
  | fatal (msg : List Char)
  | skip (msg : List Char)
deriving DecidableEq

/-- Leading inclusion sign of a shape line (`-` excludes, `+` includes). -/
def stripSign : List Char → Option Bool × List Char
  | [] => (none, [])
  | c :: cs =>
    if c = '-' then (some false, cs)
    else if c = '+' then (some true, cs)
    else (none, c :: cs)

/-- Whitespace-separated tokens (for the parenthesis-free argument form). -/
def wsTokens (cs : List Char) : List (List Char) :=
  ((splitOnC ' ' cs).map trim).filter (fun t => !t.isEmpty)

/-- Split a shape-line body into region-type keyword and argument tokens:
either `type(a,b,...)` or space-separated `type a b ...`. `none` means the
line structure is unparsable (mismatched parentheses / no keyword). -/
def splitNameArgs (cs : List Char) : Option (List Char × List (List Char)) :=
  match splitFirst '(' cs with
  | some (nm, rest) =>
    match splitFirst ')' rest with
    | some (inner, tail) =>
      if (trim tail).isEmpty then some (trim nm, (splitOnC ',' inner).map trim)
      else none
    | none => none
  | none =>
    match wsTokens cs with
    | [] => none
    | nm :: args => some (nm, args)

/-- Warning text for an unrecognized region type keyword. -/
def unsupportedMsg (nm : List Char) : List Char :=
  ("Region type \"").data ++ nm ++
    ("\" was found, but it is not one of the supported region types.").data

/-- Warning text for an explicitly-unsupported composite region type. -/
def compositeMsg (nm : List Char) : List Char :=
  ("Region type \"").data ++ nm ++
    ("\" is a composite region and is not supported.").data

/-- Warning text for a wrong coordinate count. -/
def arityMsg (nm : List Char) : List Char :=
  ("Wrong number of coordinates for region type \"").data ++ nm ++ ("\".").data

/-- Warning text for an unparsable numeric or unit token. -/
def coordMsg (nm : List Char) : List Char :=
  ("Unparsable coordinate token in region of type \"").data ++ nm ++ ("\".").data

/-- Fatal message: sky shape before any coordinate frame was established. -/
def noFrameMsg : List Char :=
  ("No coordinate frame was established before a region line.").data

/-- Fatal message: unparsable line structure. -/
def syntaxMsg : List Char := ("Unparsable region line structure.").data

/-- Resolve every coordinate argument, threading the argument index. -/
def parseCoords (fr : Frame) : Nat → List (List Char) → Option (List Quantity)
  | _, [] => some []
  | i, a :: as => do
    let q ← parseCoordToken fr i a
    let qs ← parseCoords fr (i + 1) as
    pure (q :: qs)

/-- Modelled from the spec: build a Shape — metadata is the global snapshot
overridden per-key by the line's local metadata; `include` comes from the
leading sign if present, else from merged `include` meta, default true. -/
def mkShape (rt : RegionType) (fr : Frame) (coords : List Quantity)
    (sign : Option Bool) (gm loc : Meta) : Shape :=
  let m := mergeMeta gm loc
  ⟨rt, fr, coords, m, sign.getD (metaIncl m), false, none⟩

/-- Split a sign-stripped shape line at the first `#` into its body and the
trailing metadata block (empty when there is no `#`). -/
def splitMetaPart (rest : List Char) : List Char × List Char :=
  match splitFirst '#' rest with
  | some (b, mp) => (b, mp)
  | none => (rest, [])

/-- Parse a shape line once its region type is resolved: check arity,
resolve coordinates, and build the Shape. -/
def parseShapeTyped (fr : Frame) (gm : Meta) (sign : Option Bool)
    (nmL : List Char) (rt : RegionType) (args : List (List Char))
    (metaPart : List Char) : ShapeOut :=
  if arityOk rt args.length then
    match parseCoords fr 0 args with
    | none => .skip (coordMsg nmL)
    | some coords => .ok (mkShape rt fr coords sign gm (parsePairs metaPart))
  else .skip (arityMsg nmL)

/-- Parse a shape line once keyword and argument tokens are isolated:
resolve the type, then hand over to `parseShapeTyped`. -/
def parseShapeArgs (frOpt : Option Frame) (gm : Meta) (sign : Option Bool)
    (nm : List Char) (args : List (List Char)) (metaPart : List Char) :
    ShapeOut :=
  match regionTypeOf (lowerChars nm) with
  | none =>
    .skip (if compositeNames.contains (lowerChars nm) then
             compositeMsg (lowerChars nm)
           else unsupportedMsg (lowerChars nm))
  | some rt =>
    match frOpt with
    | none => .fatal noFrameMsg
    | some fr => parseShapeTyped fr gm sign (lowerChars nm) rt args metaPart

/-- Parse a shape line split into its body and trailing metadata block. -/
def parseShapeSplit (frOpt : Option Frame) (gm : Meta) (sign : Option Bool)
    (body metaPart : List Char) : ShapeOut :=
  match splitNameArgs (trim body) with
  | none => .fatal syntaxMsg
  | some (nm, args) => parseShapeArgs frOpt gm sign nm args metaPart

/-- Parse a region-declaration line after the inclusion sign was stripped:
split off the trailing `# key=value` block, then hand over to
`parseShapeSplit`. -/
def parseShapeRest (frOpt : Option Frame) (gm : Meta) (sign : Option Bool)
    (rest : List Char) : ShapeOut :=
  parseShapeSplit frOpt gm sign (splitMetaPart rest).1 (splitMetaPart rest).2

/-- Modelled from the spec: parse one region-declaration line (sign, type
keyword, coordinate arguments, trailing `# key=value` block) against the
given frame and global-metadata snapshot. -/
def parseShapeCore (frOpt : Option Frame) (gm : Meta) (cs : List Char) : ShapeOut :=
  parseShapeRest frOpt gm (stripSign (trim cs)).1 (stripSign (trim cs)).2

/-! ## The parser state machine -/

/-- Modelled from the spec: the per-file error policy. -/
inductive ErrPolicy
  | strict | warn | ignore
deriving DecidableEq

/-- Modelled from the spec: mutable parser state — current frame, accumulated
global metadata, parsed shapes, collected warnings. -/
structure PState where
  frame : Option Frame
  globalMeta : Meta
  shapes : List Shape
  warnings : List (List Char)
deriving DecidableEq

/-- Fresh parser state. -/
def initState : PState := ⟨none, [], [], []⟩

/-- Apply the error policy to a shape-line outcome: `strict` fails the whole
parse, `warn` records a warning and skips, `ignore` skips silently. -/
def handleShape (e : ErrPolicy) (st : PState) (frOpt : Option Frame)
    (cs : List Char) : Except (List Char) PState :=
  match parseShapeCore frOpt st.globalMeta cs with
  | .ok s => .ok { st with shapes := st.shapes ++ [s] }
  | .fatal m => .error m
  | .skip m =>
    match e with
    | .strict => .error m
    | .warn => .ok { st with warnings := st.warnings ++ [m] }
    | .ignore => .ok st

/-- Recognize a `global key=value ...` declaration line. -/
def isGlobalLine (t : List Char) : Bool :=
  startsWith (("global ").data) (lowerChars t)

/-- Modelled from the spec: classify and process one trimmed logical line —
blank, comment, global declaration, frame declaration, inline-frame shape
line, or plain shape line. -/
def parseLineT (e : ErrPolicy) (st : PState) (t : List Char) :
    Except (List Char) PState :=
  match t.head? with
  | none => .ok st
  | some c =>
    if c = '#' then .ok st
    else if isGlobalLine t then
      .ok { st with globalMeta := mergeMeta st.globalMeta (parsePairs (t.drop 7)) }
    else
      match frameOfChars (lowerChars t) with
      | some fr => .ok { st with frame := some fr }
      | none =>
        match splitFirst ';' t with
        | some (hd, restL) =>
          match frameOfChars (lowerChars (trim hd)) with
          | some fr => handleShape e st (some fr) restL
          | none => handleShape e st st.frame t
        | none => handleShape e st st.frame t

/-- Classify and process one logical line, whitespace-trimmed first. -/
def parseLine (e : ErrPolicy) (st : PState) (line : List Char) :
    Except (List Char) PState :=
  parseLineT e st (trim line)

/-- Fold the parser over a list of logical lines. -/
def parseLines (e : ErrPolicy) : PState → List (List Char) →
    Except (List Char) PState
  | st, [] => .ok st
  | st, l :: ls =>
    match parseLine e st l with
    | .ok st' => parseLines e st' ls
    | .error m => .error m

/-- Modelled from the spec: `DS9Parser` — parse a whole document under the
given error policy, from a fresh state. -/
def parse (e : ErrPolicy) (cs : List Char) : Except (List Char) PState :=
  parseLines e initState (splitOnC '\n' cs)

/-! ## Regions and the Region Factory -/

/-- Modelled from the spec: a concrete typed region. Coordinates are stored
canonically: degrees for sky frames, pixels for pixel frames. -/
structure Region where
  rtype : RegionType
  frame : Frame
  coords : List ℚ
  meta : Meta
  incl : Bool
deriving DecidableEq

/-- The `text` metadata key. -/
def textKey : List Char := ("text").data

/-- The `label` metadata key. -/
def labelKey : List Char := ("label").data

/-- The `color` metadata key. -/
def colorKey : List Char := ("color").data

/-- Modelled from the spec: a `text` metadata value is additionally mirrored
into a `label` key (the `text` key is retained). -/
def mirrorTextLabel (m : Meta) : Meta :=
  match metaLookup textKey m with
  | some v => updateMeta m labelKey v
  | none => m

/-- Modelled from the spec: the Region Factory — one Shape maps to exactly
one Region (or zero if its quantities cannot be represented in the frame's
canonical unit). Metadata is attached verbatim except the text→label
mirror. Radian quantities have no exact canonical degree value in this
rational model, so shapes carrying them yield no Region. -/
def Shape.toRegion (s : Shape) : Option Region :=
  if s.coordsys.isSky then do
    let cs ← s.coord.mapM Quantity.toDeg
    pure ⟨s.regionType, s.coordsys, cs, mirrorTextLabel s.meta, s.incl⟩
  else do
    let cs ← s.coord.mapM Quantity.toPix
    pure ⟨s.regionType, s.coordsys, cs, mirrorTextLabel s.meta, s.incl⟩

/-- Modelled from the spec: `ShapeList.to_regions` — each Shape maps to one
Region or is skipped. -/
def toRegions (shapes : List Shape) : List Region :=
  shapes.filterMap Shape.toRegion

/-! ## Serializer -/

/-- Radius-unit override accepted by the serializer. -/
inductive RadUnit
  | arcsec | arcmin
deriving DecidableEq

/-- Render one metadata value: booleans as `1`/`0`, values containing
whitespace wrapped in double quotes. -/
def renderValue : MetaVal → List Char
  | .bool b => if b then ("1").data else ("0").data
  | .str s => if s.any isWS then quoteChar :: s ++ [quoteChar] else s

/-- Render metadata pairs as `key=value` separated by single spaces. -/
def renderPairs : Meta → List Char
  | [] => []
  | [kv] => kv.1 ++ '=' :: renderValue kv.2
  | kv :: m => kv.1 ++ '=' :: renderValue kv.2 ++ ' ' :: renderPairs m

/-- Join rendered coordinate tokens with commas. -/
def joinComma : List (List Char) → List Char
  | [] => []
  | [a] => a
  | a :: as => a ++ ',' :: joinComma as

/-- Render one coordinate of a region: plain fixed-point in the canonical
unit, except radius-like sky arguments when a radius unit is requested. -/
def coordChars (fr : Frame) (p : Nat) (ru : Option RadUnit) (rt : RegionType)
    (i : Nat) (q : ℚ) : List Char :=
  if fr.isSky && isRadiusArg rt i then
    match ru with
    | some .arcsec => fmtFixed (q * 3600) p ++ [quoteChar]
    | some .arcmin => fmtFixed (q * 60) p ++ [arcminChar]
    | none => fmtFixed q p
  else fmtFixed q p

/-- Map with the argument position. -/
def mapIdxFrom (f : Nat → ℚ → List Char) : Nat → List ℚ → List (List Char)
  | _, [] => []
  | i, q :: qs => f i q :: mapIdxFrom f (i + 1) qs

/-- Keys whose value is encoded structurally rather than as a metadata pair
(`include` becomes the leading `-` sign). -/
def droppedKeys (m : Meta) : Meta := m.filter (fun kv => kv.1 ≠ inclKey)

/-- Modelled from the spec: render one region as
`[-]type(args) [# key=value ...]`. -/
def regionLineChars (fr : Frame) (p : Nat) (ru : Option RadUnit) (r : Region) :
    List Char :=
  let pm := droppedKeys r.meta
  (if r.incl then [] else ['-']) ++ r.rtype.name ++
    '(' :: joinComma (mapIdxFrom (coordChars fr p ru r.rtype) 0 r.coords) ++
    ')' :: (if pm.isEmpty then [] else ' ' :: '#' :: ' ' :: renderPairs pm)

/-- The header comment emitted by the serializer. -/
def headerChars : List Char := ("# Region file format: DS9 astropy/regions").data

/-- Append each line followed by a newline. -/
def joinLines : List (List Char) → List Char
  | [] => []
  | l :: ls => l ++ '\n' :: joinLines ls

/-- Modelled from the spec: the serializer — header comment, frame
declaration, one line per region. Coordinate-frame transforms are an
external black box, so regions are rendered in their stored frame; the
caller passes the matching target frame. -/
def serializeChars (regs : List Region) (fr : Frame) (p : Nat)
    (ru : Option RadUnit) : List Char :=
  headerChars ++ '\n' :: fr.name ++ '\n' :: joinLines (regs.map (regionLineChars fr p ru))

/-! ## String-level wrappers -/

/-- Parse a string document. -/
def parseStr (e : ErrPolicy) (s : String) : Except (List Char) PState :=
  parse e s.data

/-- Whether a parse succeeds. -/
def parseOk (e : ErrPolicy) (s : String) : Bool :=
  match parseStr e s with
  | .ok _ => true
  | .error _ => false

/-- Shapes of a successful parse (empty on failure). -/
def shapesOf (e : ErrPolicy) (s : String) : List Shape :=
  match parseStr e s with
  | .ok st => st.shapes
  | .error _ => []

/-- Warnings of a successful parse (empty on failure). -/
def warningsOf (e : ErrPolicy) (s : String) : List (List Char) :=
  match parseStr e s with
  | .ok st => st.warnings
  | .error _ => []

/-- Global metadata of a successful parse (empty on failure). -/
def globalMetaOf (e : ErrPolicy) (s : String) : Meta :=
  match parseStr e s with
  | .ok st => st.globalMeta
  | .error _ => []

/-- Regions produced from a successful parse. -/
def regionsOf (e : ErrPolicy) (s : String) : List Region :=
  toRegions (shapesOf e s)

/-- `ds9_objects_to_string`, at the string level. -/
def ds9ObjectsToString (regs : List Region) (fr : Frame) (p : Nat)
    (ru : Option RadUnit) : String :=
  ⟨serializeChars regs fr p ru⟩

/-! ## Claim inputs -/

/-- The end-to-end example document. -/
def c1text : String :=
  "# Region file format: DS9 astropy/regions\nfk5\ncircle(42.0000,43.0000,3.0000)\n"

/-- The document with an unrecognized region type. -/
def c2text : String :=
  "# Region file format: DS9 astropy/regions\nfk5\ncircle(42.0000,43.0000,3.0000)\nnotaregiontype(blah)"

/-- The global/local color-override document. -/
def c4text : String :=
  "# Region file format: DS9 astropy/regions\nglobal color=blue dashlist=8 3 width=1 font=\"helvetica 10 normal roman\" select=1 highlite=1 dash=0 fixed=0 edit=1 move=1 delete=1 include=1 source=1\nfk5\ncircle(42.0000,43.0000,3.0000) # color=green\ncircle(43.0000,43.0000,3.0000) # color=orange\ncircle(43.0000,43.0000,3.0000)"

/-- The global-declaration test line. -/
def c5text : String :=
  "global color=green dashlist=8 3 width=1 font=\"helvetica 10 normal roman\" select=1 highlite=1 dash=0 fixed=0 edit=1 move=1 delete=1 include=1 source=1"

/-- The whitespace-and-minus-prefixed circle document. -/
def c6text : String :=
  "# Region file format: DS9 astropy/regions\nfk5\n -circle(42.0000,43.0000,3.0000)\n"

/-- The text-attribute document. -/
def c9text : String := "image\ncircle(1.5, 2, 2) # text={this_is_text}"

/-! ## Round-trip reconstruction (serializer contract)

These definitions describe what one serialize→parse pass does to a region:
numeric values are rounded to the requested precision, booleans other than
`include` re-read as the strings `1`/`0`, and the `include` pair is carried
by the leading sign instead of a metadata pair. -/

/-- The metadata value as it reads back after one render→parse pass. -/
def reVal : MetaVal → MetaVal
  | .str v => .str v
  | .bool b => .str (if b then ("1").data else ("0").data)

/-- Metadata after one render→parse pass: the `include` pair is rendered as
the leading sign (not as a pair), and values re-read per `reVal`. -/
def reparsedMeta (m : Meta) : Meta :=
  (droppedKeys m).map (fun kv => (kv.1, reVal kv.2))

/-- The value obtained by formatting `q` at `p` decimals and parsing back. -/
def roundFix (q : ℚ) (p : Nat) : ℚ := (roundHalf (q * 10 ^ p) : ℚ) / 10 ^ p

/-- The quantity a rendered coordinate parses back to. -/
def reQuantity (fr : Frame) (p : Nat) (ru : Option RadUnit) (rt : RegionType)
    (i : Nat) (q : ℚ) : Quantity :=
  if fr.isSky && isRadiusArg rt i then
    match ru with
    | some .arcsec => ⟨roundFix (q * 3600) p, .arcsec⟩
    | some .arcmin => ⟨roundFix (q * 60) p, .arcmin⟩
    | none => ⟨roundFix q p, .deg⟩
  else ⟨roundFix q p, if fr.isSky then .deg else .pix⟩

/-- The canonical coordinate value after a full render→parse→factory pass. -/
def roundCoord (fr : Frame) (p : Nat) (ru : Option RadUnit) (rt : RegionType)
    (i : Nat) (q : ℚ) : ℚ :=
  if fr.isSky && isRadiusArg rt i then
    match ru with
    | some .arcsec => roundFix (q * 3600) p / 3600
    | some .arcmin => roundFix (q * 60) p / 60
    | none => roundFix q p
  else roundFix q p

/-- Map over quantities with the argument position. -/
def mapIdxQ (f : Nat → ℚ → Quantity) : Nat → List ℚ → List Quantity
  | _, [] => []
  | i, q :: qs => f i q :: mapIdxQ f (i + 1) qs

/-- Map over canonical coordinates with the argument position. -/
def mapIdxC (f : Nat → ℚ → ℚ) : Nat → List ℚ → List ℚ
  | _, [] => []
  | i, q :: qs => f i q :: mapIdxC f (i + 1) qs

/-- The region a serialized region reads back as. -/
def roundRegion (fr : Frame) (p : Nat) (ru : Option RadUnit) (r : Region) :
    Region :=
  ⟨r.rtype, fr, mapIdxC (roundCoord fr p ru r.rtype) 0 r.coords,
    mirrorTextLabel (reparsedMeta r.meta), r.incl⟩

/-- The shape the parser reconstructs from a serialized region line. -/
def shapeOfRegion (fr : Frame) (p : Nat) (ru : Option RadUnit) (r : Region) :
    Shape :=
  mkShape r.rtype fr (mapIdxQ (reQuantity fr p ru r.rtype) 0 r.coords)
    (if r.incl then none else some false) [] (reparsedMeta r.meta)

/-- Characters that may not appear in a serializable metadata key. -/
def badKeyChar (c : Char) : Bool :=
  isWS c || c = '=' || c = '#' || c = ';' || c = '\n' || c = quoteChar
    || c = braceOpen || c = braceClose

/-- Characters that may not appear in a serializable metadata value. -/
def badValChar (c : Char) : Bool :=
  c = '#' || c = ';' || c = '\n' || c = quoteChar || c = braceOpen
    || c = braceClose

/-- A metadata value the serializer can render reversibly. -/
def wfValB : MetaVal → Bool
  | .str v => v.all (fun c => !badValChar c)
  | .bool _ => true

/-- When `text` is present, `label` must mirror it already (the factory
guarantees this for every region it produces). -/
def textLabelOkB (m : Meta) : Bool :=
  match metaLookup textKey m with
  | some v => decide (metaLookup labelKey m = some v)
  | none => true

/-- Metadata the serializer can render reversibly. -/
def wfMetaB (m : Meta) : Bool :=
  decide (m.map Prod.fst).Nodup &&
    m.all (fun kv => !kv.1.isEmpty && kv.1.all (fun c => !badKeyChar c)
      && wfValB kv.2) &&
    textLabelOkB m

/-- A region the serializer supports: stored in the target frame, with the
arity of its type and reversible metadata. -/
def wfRegionB (fr : Frame) (r : Region) : Bool :=
  decide (r.frame = fr) && arityOk r.rtype r.coords.length && wfMetaB r.meta

/-- Whether a char-level parse succeeds. -/
def parseOkC (e : ErrPolicy) (cs : List Char) : Bool :=
  match parse e cs with
  | .ok _ => true
  | .error _ => false

/-- Shapes of a successful char-level parse. -/
def shapesOfC (e : ErrPolicy) (cs : List Char) : List Shape :=
  match parse e cs with
  | .ok st => st.shapes
  | .error _ => []

/-- Parse a document and serialize the resulting regions back. -/
def reserialize (e : ErrPolicy) (fr : Frame) (p : Nat) (ru : Option RadUnit)
    (cs : List Char) : List Char :=
  serializeChars (toRegions (shapesOfC e cs)) fr p ru

/-- A concrete serializable region list for the idempotence example. -/
def c8regs : List Region :=
  [⟨.circle, .fk5, [42, 43, 3],
    [((("color").data : List Char), .str (("green").data))], true⟩,
   ⟨.ellipse, .fk5, [1, 2, 3, 4, 45], [], false⟩]

end DS9

namespace RegionsCore

/-!
## `RegionList` (embedded from `src/regions/core/regionlist.py`)

`RegionList` holds a plain Python list of `Region` objects. Indexing with
an integer returns one element (`isinstance(newregions, Region)` holds);
indexing with a slice returns a Python list, which `__getitem__` wraps in a
fresh `RegionList`. Python indexing semantics (negative indices, clamped
slices, `IndexError` on out-of-range integer access) are made explicit.
-/

/-- A Python index expression: integer or step-1 slice. -/
inductive PyIndex
  | int (i : Int)
  | slice (start stop : Option Int)

/-- Normalize a (possibly negative) Python index against length `n`. -/
def pyNorm (n : Nat) (i : Int) : Int := if i < 0 then i + n else i

/-- `xs[i]` for an integer index: `none` models `IndexError`. -/
def pyGetInt {α : Type} (xs : List α) (i : Int) : Option α :=
  let j := pyNorm xs.length i
  if 0 ≤ j ∧ j < xs.length then xs.get? j.toNat else none

/-- Clamp a slice bound into `[0, n]`. -/
def pyBound (n : Nat) (dflt : Nat) : Option Int → Nat
  | none => dflt
  | some i =>
    let j := pyNorm n i
    if j < 0 then 0 else if (n : Int) < j then n else j.toNat

/-- `xs[a:b]` for a step-1 slice. -/
def pySlice {α : Type} (xs : List α) (a b : Option Int) : List α :=
  let lo := pyBound xs.length 0 a
  let hi := pyBound xs.length xs.length b
  (xs.take hi).drop lo

/-- `self.regions[index]`: an integer index selects one element, a slice
selects a sublist. -/
def pyGetItem {α : Type} (xs : List α) : PyIndex → Option (α ⊕ List α)
  | .int i => (pyGetInt xs i).map Sum.inl
  | .slice a b => some (Sum.inr (pySlice xs a b))

/-- `RegionList`: a list of regions (`α` stands for the `Region` class). -/
structure RegionList (α : Type) where
  regions : List α

/-- `RegionList.__getitem__`: take `self.regions[index]`; if it is a single
`Region`, return it; otherwise wrap the selected sublist in a new
`RegionList`. -/
def RegionList.getItem {α : Type} (l : RegionList α) (index : PyIndex) :
    Option (α ⊕ RegionList α) :=
  match pyGetItem l.regions index with
  | none => none
  | some (Sum.inl r) => some (Sum.inl r)
  | some (Sum.inr xs) => some (Sum.inr ⟨xs⟩)

/-- `RegionList.__len__`. -/
def RegionList.len {α : Type} (l : RegionList α) : Nat := l.regions.length

end RegionsCore

namespace DS9

/-! ## Supporting lemmas: metadata resolver -/

theorem metaLookup_append (m₁ m₂ : Meta) (k : List Char) :
    metaLookup k (m₁ ++ m₂)
      = (metaLookup k m₁).orElse (fun _ => metaLookup k m₂) := by
  induction m₁ with
  | nil => simp [metaLookup]
  | cons kv t ih =>
    by_cases hk : kv.1 = k <;> simp [metaLookup, hk, ih]

theorem metaLookup_eq_none (m : Meta) (k : List Char)
    (h : ∀ kv ∈ m, kv.1 ≠ k) : metaLookup k m = none := by
  induction m with
  | nil => rfl
  | cons kv t ih =>
    have h1 := h kv (by simp)
    simp only [metaLookup, if_neg h1]
    exact ih (fun kv' hm => h kv' (by simp [hm]))

theorem metaLookup_map_update_self (m : Meta) (k : List Char) (v : MetaVal)
    (h : m.any (fun kv => kv.1 = k)) :
    metaLookup k (m.map (fun kv => if kv.1 = k then (k, v) else kv)) = some v := by
  induction m with
  | nil => simp at h
  | cons kv t ih =>
    by_cases hk : kv.1 = k
    · simp [metaLookup, hk]
    · simp only [List.any_cons, Bool.or_eq_true, decide_eq_true_eq] at h
      rcases h with h | h
      · exact absurd h hk
      · simpa [metaLookup, hk] using ih h

theorem metaLookup_map_update_ne (m : Meta) (k k' : List Char) (v : MetaVal)
    (hne : k' ≠ k) :
    metaLookup k' (m.map (fun kv => if kv.1 = k then (k, v) else kv))
      = metaLookup k' m := by
  induction m with
  | nil => rfl
  | cons kv t ih =>
    by_cases hk' : kv.1 = k'
    · have hkk : ¬kv.1 = k := by rw [hk']; exact hne
      show metaLookup k' ((if kv.1 = k then (k, v) else kv) :: _) = _
      rw [if_neg hkk]
      simp [metaLookup, hk']
    · by_cases hk : kv.1 = k
      · simp [metaLookup, hk, Ne.symm hne, hk', ih]
      · simp [metaLookup, hk, hk', ih]

theorem metaLookup_updateMeta_self (m : Meta) (k : List Char) (v : MetaVal) :
    metaLookup k (updateMeta m k v) = some v := by
  unfold updateMeta
  split
  case isTrue hany => exact metaLookup_map_update_self m k v hany
  case isFalse hany =>
    rw [metaLookup_append, metaLookup_eq_none]
    · simp [metaLookup]
    · intro kv hm
      simp only [List.any_eq_true, decide_eq_true_eq, not_exists, not_and] at hany
      exact hany kv hm

theorem metaLookup_updateMeta_ne (m : Meta) (k k' : List Char) (v : MetaVal)
    (hne : k' ≠ k) : metaLookup k' (updateMeta m k v) = metaLookup k' m := by
  unfold updateMeta
  split
  · exact metaLookup_map_update_ne m k k' v hne
  · rw [metaLookup_append]
    have h1 : metaLookup k' [(k, v)] = none := by
      simp [metaLookup, Ne.symm hne]
    rw [h1]
    cases metaLookup k' m <;> rfl

theorem metaLookup_mergeMeta (g l : Meta) (k : List Char)
    (hnd : (l.map Prod.fst).Nodup) :
    metaLookup k (mergeMeta g l)
      = (metaLookup k l).orElse (fun _ => metaLookup k g) := by
  induction l generalizing g with
  | nil => simp [mergeMeta, metaLookup]
  | cons kv t ih =>
    simp only [List.map_cons, List.nodup_cons] at hnd
    have step : mergeMeta g (kv :: t) = mergeMeta (updateMeta g kv.1 kv.2) t := by
      simp [mergeMeta]
    rw [step, ih _ hnd.2]
    by_cases hk : kv.1 = k
    · subst hk
      have hnone : metaLookup kv.1 t = none := by
        refine metaLookup_eq_none t kv.1 (fun kv' hm h => ?_)
        exact hnd.1 (h ▸ List.mem_map_of_mem Prod.fst hm)
      rw [hnone, metaLookup_updateMeta_self]
      simp [metaLookup]
    · rw [metaLookup_updateMeta_ne _ _ _ _ (fun h => hk h.symm)]
      simp [metaLookup, hk]

/-! ## Supporting lemmas: shape construction -/

theorem mkShape_coordsys (rt : RegionType) (fr : Frame) (coords : List Quantity)
    (sign : Option Bool) (gm loc : Meta) :
    (mkShape rt fr coords sign gm loc).coordsys = fr := rfl

theorem mkShape_meta (rt : RegionType) (fr : Frame) (coords : List Quantity)
    (sign : Option Bool) (gm loc : Meta) :
    (mkShape rt fr coords sign gm loc).meta = mergeMeta gm loc := rfl

theorem mkShape_incl (rt : RegionType) (fr : Frame) (coords : List Quantity)
    (sign : Option Bool) (gm loc : Meta) :
    (mkShape rt fr coords sign gm loc).incl
      = sign.getD (metaIncl (mergeMeta gm loc)) := rfl

/-- Inversion: every shape produced by `parseShapeCore` is an `mkShape` of
the established frame, the stripped leading sign, the global snapshot, and
some parsed local metadata. -/
theorem parseShapeCore_ok_inv (frOpt : Option Frame) (gm : Meta)
    (cs : List Char) (s : Shape)
    (h : parseShapeCore frOpt gm cs = .ok s) :
    ∃ rt fr coords loc, frOpt = some fr ∧
      s = mkShape rt fr coords (stripSign (trim cs)).1 gm loc := by
  unfold parseShapeCore parseShapeRest parseShapeSplit parseShapeArgs
    parseShapeTyped splitMetaPart at h
  rcases hss : stripSign (trim cs) with ⟨sign, rest⟩
  rw [hss] at h
  simp only at h
  split at h
  · exact absurd h (by simp)
  case _ nm args _ =>
    split at h
    · exact absurd h (by simp)
    case _ rt _ =>
      split at h
      · exact absurd h (by simp)
      case _ fr =>
        split at h
        · split at h
          · exact absurd h (by simp)
          case _ coords _ =>
            cases h
            exact ⟨rt, fr, coords, _, rfl, rfl⟩
        · exact absurd h (by simp)

/-- Inversion: a successful `handleShape` leaves frame and global metadata
untouched, and any new shape comes from `parseShapeCore`. -/
theorem handleShape_inv (e : ErrPolicy) (st : PState) (frOpt : Option Frame)
    (cs : List Char) (st' : PState) (h : handleShape e st frOpt cs = .ok st') :
    st'.frame = st.frame ∧ st'.globalMeta = st.globalMeta ∧
      ∀ s ∈ st'.shapes, s ∈ st.shapes ∨
        parseShapeCore frOpt st.globalMeta cs = .ok s := by
  unfold handleShape at h
  split at h
  case _ s0 hcore =>
    cases h
    refine ⟨rfl, rfl, fun s hs => ?_⟩
    rcases List.mem_append.1 hs with h1 | h1
    · exact Or.inl h1
    · simp only [List.mem_singleton] at h1
      exact Or.inr (h1 ▸ hcore)
  case _ => cases h
  case _ =>
    split at h
    · cases h
    · cases h
      exact ⟨rfl, rfl, fun s hs => Or.inl hs⟩
    · cases h
      exact ⟨rfl, rfl, fun s hs => Or.inl hs⟩

/-- Inversion: the Region built from a Shape carries the text→label-mirrored
metadata of the Shape. -/
theorem toRegion_meta (s : Shape) (r : Region) (h : s.toRegion = some r) :
    r.meta = mirrorTextLabel s.meta := by
  unfold Shape.toRegion at h
  split at h
  · cases hm : s.coord.mapM Quantity.toDeg with
    | none => rw [hm] at h; cases h
    | some cs => rw [hm] at h; cases h; rfl
  · cases hm : s.coord.mapM Quantity.toPix with
    | none => rw [hm] at h; cases h
    | some cs => rw [hm] at h; cases h; rfl

/-! ## Claim theorems -/

/-- Claim C1: the input text `"# Region file format: DS9 astropy/regions\nfk5\ncircle(42.0000,43.0000,3.0000)\n"` parses to exactly one circle Region with
center (ra = 42°, dec = 43°) and radius 3°, and serializing that Region back
with 4-decimal (`.4f`) precision reproduces the input text exactly. -/
theorem claim_C1 :
    regionsOf .strict c1text
      = [⟨.circle, .fk5, [42, 43, 3], [], true⟩] ∧
    ds9ObjectsToString (regionsOf .strict c1text) .fk5 4 none = c1text := by
  exact ⟨by with_unfolding_all rfl, by with_unfolding_all rfl⟩

/-- Claim C2: parsing a header comment, a frame line, one circle line, and a
`notaregiontype(blah)` line under `errors='warn'` succeeds, yields exactly
one shape (the circle), and emits exactly one warning whose message names
`notaregiontype` as an unsupported region type. -/
theorem claim_C2 :
    parseOk .warn c2text = true ∧
    (shapesOf .warn c2text).map (fun s => s.regionType) = [.circle] ∧
    warningsOf .warn c2text = [unsupportedMsg (("notaregiontype").data)] ∧
    containsSub (("notaregiontype").data)
      (unsupportedMsg (("notaregiontype").data)) = true := by
  refine ⟨by with_unfolding_all rfl, by with_unfolding_all rfl,
    by with_unfolding_all rfl, by with_unfolding_all rfl⟩

/-- Claim C3: unit disambiguation — `circle(1.5,2,2)` and
`circle(1.5i,2i,2i)` in an `image` frame parse to identical coordinate
values; `circle(1.5,2,2)` and `circle(1.5d,2d,2d)` in `fk5` parse
identically; `circle(1h20m30s,2d3m7s,2d)` and `circle(1:20:30,2:3:7,2)` in
`fk5` parse to equivalent angle values (equal coordinate quantities, hence
equal degree values). -/
theorem claim_C3 :
    ((shapesOf .strict ("image\ncircle(1.5,2,2)")).map (fun s => s.coord)
      = (shapesOf .strict ("image\ncircle(1.5i,2i,2i)")).map (fun s => s.coord)) ∧
    ((shapesOf .strict ("fk5\ncircle(1.5,2,2)")).map (fun s => s.coord)
      = (shapesOf .strict ("fk5\ncircle(1.5d,2d,2d)")).map (fun s => s.coord)) ∧
    ((shapesOf .strict ("fk5\ncircle(1h20m30s,2d3m7s,2d)")).map (fun s => s.coord)
      = (shapesOf .strict ("fk5\ncircle(1:20:30,2:3:7,2)")).map (fun s => s.coord)) ∧
    ((shapesOf .strict ("fk5\ncircle(1h20m30s,2d3m7s,2d)")).map
        (fun s => s.coord.map Quantity.toDeg)
      = (shapesOf .strict ("fk5\ncircle(1:20:30,2:3:7,2)")).map
        (fun s => s.coord.map Quantity.toDeg)) := by
  refine ⟨by with_unfolding_all rfl, by with_unfolding_all rfl,
    by with_unfolding_all rfl, by with_unfolding_all rfl⟩

/-- Claim C5: parsing the `global` declaration line merges its key/value
pairs into the global metadata, normalizing the boolean-valued `include`
key from `1` to `true` and keeping all other values as raw strings,
including the multi-token `dashlist=8 3` and the quoted
`font="helvetica 10 normal roman"` (quotes stripped, inner spaces kept). -/
theorem claim_C5 :
    globalMetaOf .strict c5text =
      [(("color").data, .str (("green").data)),
       (("dashlist").data, .str (("8 3").data)),
       (("width").data, .str (("1").data)),
       (("font").data, .str (("helvetica 10 normal roman").data)),
       (("select").data, .str (("1").data)),
       (("highlite").data, .str (("1").data)),
       (("dash").data, .str (("0").data)),
       (("fixed").data, .str (("0").data)),
       (("edit").data, .str (("1").data)),
       (("move").data, .str (("1").data)),
       (("delete").data, .str (("1").data)),
       (inclKey, .bool true),
       (("source").data, .str (("1").data))] := by
  with_unfolding_all rfl

/-- Claim C4: every parsed shape's metadata is the global snapshot
overridden per-key by the line's local metadata (local wins, unset keys
inherit): abstractly, looking up any key in a built shape's metadata
returns the local value if set, else the global one — so an override to
`green` wins regardless of the global value; concretely, after
`global color=blue ...`, the shapes with `color=green` / `color=orange` /
no override carry green, orange, and blue respectively. -/
theorem claim_C4 :
    (∀ (gm loc : Meta) (rt : RegionType) (fr : Frame) (coords : List Quantity)
        (sign : Option Bool) (k : List Char), (loc.map Prod.fst).Nodup →
      metaLookup k (mkShape rt fr coords sign gm loc).meta
        = (metaLookup k loc).orElse (fun _ => metaLookup k gm)) ∧
    (shapesOf .strict c4text).map (fun s => metaLookup colorKey s.meta)
      = [some (.str (("green").data)), some (.str (("orange").data)),
         some (.str (("blue").data))] := by
  refine ⟨fun gm loc rt fr coords sign k hnd => ?_, by with_unfolding_all rfl⟩
  rw [mkShape_meta]
  exact metaLookup_mergeMeta gm loc k hnd

/-- Witness for C4: with global `color=blue` and local `color=green`, the
built shape's color is green; with empty local metadata it is blue. -/
theorem claim_C4_witness :
    metaLookup colorKey (mkShape .circle .fk5 [] none
        [(colorKey, .str (("blue").data))]
        [(colorKey, .str (("green").data))]).meta
      = some (.str (("green").data)) ∧
    metaLookup colorKey (mkShape .circle .fk5 [] none
        [(colorKey, .str (("blue").data))] []).meta
      = some (.str (("blue").data)) := by
  constructor
  · rw [claim_C4.1 [(colorKey, .str (("blue").data))]
      [(colorKey, .str (("green").data))] .circle .fk5 [] none colorKey
      (by simp)]
    rfl
  · rw [claim_C4.1 [(colorKey, .str (("blue").data))] [] .circle .fk5 [] none
      colorKey (by simp)]
    rfl

/-- Claim C6: for every shape line, a leading `-` sign (after whitespace
trimming) yields `include = false`; no sign yields `include = true` when no
`include` metadata override is in force. Concretely, the whitespace-indented
`-circle(...)` line of the test parses with `include = false`. -/
theorem claim_C6 :
    (∀ (frOpt : Option Frame) (gm : Meta) (cs : List Char) (s : Shape),
        parseShapeCore frOpt gm cs = .ok s →
      ((stripSign (trim cs)).1 = some false → s.incl = false) ∧
      ((stripSign (trim cs)).1 = none → metaLookup inclKey s.meta = none →
        s.incl = true)) ∧
    (shapesOf .strict c6text).map (fun s => s.incl) = [false] := by
  refine ⟨fun frOpt gm cs s h => ?_, by with_unfolding_all rfl⟩
  obtain ⟨rt, fr, coords, loc, hfr, hs⟩ := parseShapeCore_ok_inv frOpt gm cs s h
  subst hs
  constructor
  · intro hsg
    rw [mkShape_incl, hsg]
    rfl
  · intro hsg hlk
    rw [mkShape_meta] at hlk
    rw [mkShape_incl, hsg]
    simp [Option.getD, metaIncl, hlk]

/-- Witness for C6: `-circle(1,2,3)` under `fk5` parses to a shape, and the
claim theorem shows its inclusion flag is false. -/
theorem claim_C6_witness :
    (⟨.circle, .fk5, [⟨1, .deg⟩, ⟨2, .deg⟩, ⟨3, .deg⟩], [], false, false,
      none⟩ : Shape).incl = false :=
  (claim_C6.1 (some .fk5) [] (("-circle(1,2,3)").data)
    ⟨.circle, .fk5, [⟨1, .deg⟩, ⟨2, .deg⟩, ⟨3, .deg⟩], [], false, false, none⟩
    (by with_unfolding_all rfl)).1 (by with_unfolding_all rfl)

/-- Claim C7: a `frame_name; shape_line` inline frame override is recognized
and scoped to that single line: whenever the parser classifies a line as
inline-frame (its first `;`-segment names a frame and no earlier
classification applies), the ambient frame and global metadata are
unchanged afterwards and every shape added by that line carries the named
frame. Concretely, `galactic; circle(...)` between `fk5` lines yields a
galactic shape followed by an fk5 shape, and the named frame governs unit
resolution (`1:2:3` is degrees under the galactic override but hours under
ambient fk5). -/
theorem claim_C7 :
    (∀ (e : ErrPolicy) (st : PState) (line : List Char) (st' : PState)
        (hd restL : List Char) (fr : Frame),
        (trim line).head? ≠ some '#' →
        isGlobalLine (trim line) = false →
        frameOfChars (lowerChars (trim line)) = none →
        splitFirst ';' (trim line) = some (hd, restL) →
        frameOfChars (lowerChars (trim hd)) = some fr →
        parseLine e st line = .ok st' →
      st'.frame = st.frame ∧ st'.globalMeta = st.globalMeta ∧
        ∀ s ∈ st'.shapes, s ∈ st.shapes ∨ s.coordsys = fr) ∧
    (shapesOf .strict ("fk5\ngalactic; circle(10,20,5)\ncircle(4,5,6)")).map
        (fun s => s.coordsys) = [.galactic, .fk5] ∧
    (shapesOf .strict ("galactic; circle(1:2:3,4:5:6,7)")).map
        (fun s => s.coord.map (fun q => q.unit)) = [[.deg, .deg, .deg]] ∧
    (shapesOf .strict ("fk5\ncircle(1:2:3,4:5:6,7)")).map
        (fun s => s.coord.map (fun q => q.unit)) = [[.hour, .deg, .deg]] := by
  refine ⟨fun e st line st' hd restL fr hhash hglob hfr hsplit hfr2 hp => ?_,
    by with_unfolding_all rfl, by with_unfolding_all rfl,
    by with_unfolding_all rfl⟩
  unfold parseLine parseLineT at hp
  rcases ht : trim line with _ | ⟨c, cs⟩
  · rw [ht] at hsplit
    cases hsplit
  · rw [ht] at hhash hglob hfr hsplit hp
    simp only [List.head?_cons, ne_eq, Option.some.injEq] at hhash
    simp only [List.head?_cons] at hp
    rw [if_neg hhash, if_neg (by simp [hglob]), hfr] at hp
    simp only at hp
    rw [hsplit] at hp
    simp only at hp
    rw [hfr2] at hp
    obtain ⟨h1, h2, h3⟩ := handleShape_inv e st (some fr) restL st' hp
    refine ⟨h1, h2, fun s hs => ?_⟩
    rcases h3 s hs with h | h
    · exact Or.inl h
    · obtain ⟨rt, fr', coords, loc, hfr', hmk⟩ :=
        parseShapeCore_ok_inv _ _ _ _ h
      cases hfr'
      exact Or.inr (by rw [hmk, mkShape_coordsys])

/-- Witness for C7: `galactic; circle(1,2,3)` from a fresh state — the
resulting state keeps the ambient frame (`none`), keeps the empty global
metadata, and its single shape is galactic. -/
theorem claim_C7_witness :
    (⟨none, [], [⟨.circle, .galactic, [⟨1, .deg⟩, ⟨2, .deg⟩, ⟨3, .deg⟩], [],
        true, false, none⟩], []⟩ : PState).frame = initState.frame ∧
    (⟨none, [], [⟨.circle, .galactic, [⟨1, .deg⟩, ⟨2, .deg⟩, ⟨3, .deg⟩], [],
        true, false, none⟩], []⟩ : PState).globalMeta = initState.globalMeta ∧
    ∀ s ∈ (⟨none, [], [⟨.circle, .galactic, [⟨1, .deg⟩, ⟨2, .deg⟩, ⟨3, .deg⟩],
        [], true, false, none⟩], []⟩ : PState).shapes,
      s ∈ initState.shapes ∨ s.coordsys = .galactic :=
  claim_C7.1 .strict initState (("galactic; circle(1,2,3)").data)
    ⟨none, [], [⟨.circle, .galactic, [⟨1, .deg⟩, ⟨2, .deg⟩, ⟨3, .deg⟩], [],
      true, false, none⟩], []⟩
    (("galactic").data) ((" circle(1,2,3)").data) .galactic
    (by with_unfolding_all decide) (by with_unfolding_all rfl)
    (by with_unfolding_all rfl) (by with_unfolding_all rfl)
    (by with_unfolding_all rfl) (by with_unfolding_all rfl)

/-- Claim C9: when the Region Factory builds a Region from a Shape, the
metadata is attached verbatim except that a present `text` value is also
mirrored into `label` (with `text` retained): lookups of every key other
than `label` are unchanged, `text` lookup is preserved, and `label` equals
the `text` value when `text` is present; with no `text` key the metadata is
attached verbatim. Concretely, `text={this_is_text}` yields a shape with
only `text` set and a Region with both `text` and `label` set. -/
theorem claim_C9 :
    (∀ (s : Shape) (r : Region), s.toRegion = some r →
      (metaLookup textKey s.meta = none → r.meta = s.meta) ∧
      (∀ v, metaLookup textKey s.meta = some v →
        metaLookup labelKey r.meta = some v ∧
        metaLookup textKey r.meta = some v) ∧
      (∀ k, k ≠ labelKey → metaLookup k r.meta = metaLookup k s.meta)) ∧
    (shapesOf .strict c9text).map (fun s => s.meta)
      = [[(textKey, .str (("this_is_text").data))]] ∧
    (regionsOf .strict c9text).map (fun r => r.meta)
      = [[(textKey, .str (("this_is_text").data)),
          (labelKey, .str (("this_is_text").data))]] := by
  refine ⟨fun s r h => ?_, by with_unfolding_all rfl, by with_unfolding_all rfl⟩
  have hm := toRegion_meta s r h
  refine ⟨fun hn => ?_, fun v hv => ?_, fun k hk => ?_⟩
  · rw [hm]
    unfold mirrorTextLabel
    rw [hn]
  · rw [hm]
    unfold mirrorTextLabel
    rw [hv]
    refine ⟨metaLookup_updateMeta_self _ _ _, ?_⟩
    rw [metaLookup_updateMeta_ne _ _ _ _ (by decide)]
    exact hv
  · rw [hm]
    unfold mirrorTextLabel
    split
    · exact metaLookup_updateMeta_ne _ _ _ _ hk
    · rfl

/-- Witness for C9: a pixel circle with `text=hello` converts to a Region
whose metadata has `label=hello` and still `text=hello`. -/
theorem claim_C9_witness :
    metaLookup labelKey
        (⟨.circle, .image, [1], [(textKey, .str (("hello").data)),
          (labelKey, .str (("hello").data))], true⟩ : Region).meta
      = some (.str (("hello").data)) ∧
    metaLookup textKey
        (⟨.circle, .image, [1], [(textKey, .str (("hello").data)),
          (labelKey, .str (("hello").data))], true⟩ : Region).meta
      = some (.str (("hello").data)) :=
  (claim_C9.1
    ⟨.circle, .image, [⟨1, .pix⟩], [(textKey, .str (("hello").data))], true,
      false, none⟩
    ⟨.circle, .image, [1], [(textKey, .str (("hello").data)),
      (labelKey, .str (("hello").data))], true⟩
    (by with_unfolding_all rfl)).2.1 (.str (("hello").data))
    (by with_unfolding_all rfl)

end DS9

namespace RegionsCore

/-- Claim C10: `RegionList.__getitem__` with an integer index that selects a
single Region returns that Region itself; with a slice it returns a new
`RegionList` wrapping exactly the selected sublist (the original's regions
are untouched — all operations here are pure); `len` always equals the
length of the underlying regions list. -/
theorem claim_C10 {α : Type} :
    (∀ (l : RegionList α) (i : Int) (r : α),
        pyGetInt l.regions i = some r → l.getItem (.int i) = some (Sum.inl r)) ∧
    (∀ (l : RegionList α) (a b : Option Int),
        l.getItem (.slice a b) = some (Sum.inr ⟨pySlice l.regions a b⟩)) ∧
    (∀ l : RegionList α, l.len = l.regions.length) := by
  refine ⟨fun l i r h => ?_, fun l a b => ?_, fun l => rfl⟩
  · simp [RegionList.getItem, pyGetItem, h]
  · rfl

/-- Witness for C10: a concrete three-element list — integer index `-1`
returns the last region, slice `[0:2]` returns a new `RegionList` of the
first two, and `len` is 3. -/
theorem claim_C10_witness :
    (RegionList.mk [10, 20, 30]).getItem (.int (-1)) = some (Sum.inl 30) ∧
    (RegionList.mk [10, 20, 30]).getItem (.slice (some 0) (some 2))
      = some (Sum.inr ⟨[10, 20]⟩) ∧
    (RegionList.mk [10, 20, 30]).len = 3 := by
  refine ⟨claim_C10.1 _ (-1) 30 (by decide), ?_, claim_C10.2.2 _⟩
  have h := claim_C10.2.1 (RegionList.mk [10, 20, 30]) (some 0) (some 2)
  simpa using h

end RegionsCore

namespace DS9

/-! ## Supporting lemmas: decimal rendering and parsing -/

theorem digitsVal_shift (ys : List Char) (a : Nat) :
    ys.foldl (fun x c => 10 * x + digVal c) a
      = a * 10 ^ ys.length + digitsVal ys := by
  induction ys generalizing a with
  | nil => simp [digitsVal]
  | cons c ys ih =>
    have h2 : digitsVal (c :: ys) = digVal c * 10 ^ ys.length + digitsVal ys := by
      show List.foldl _ (10 * 0 + digVal c) ys = _
      rw [ih (10 * 0 + digVal c)]
      ring_nf
    rw [List.foldl_cons, ih (10 * a + digVal c), h2, List.length_cons, pow_succ]
    ring

theorem digitsVal_append (xs ys : List Char) :
    digitsVal (xs ++ ys) = digitsVal xs * 10 ^ ys.length + digitsVal ys := by
  unfold digitsVal
  rw [List.foldl_append]
  exact digitsVal_shift ys _

theorem digVal_digitChar (d : Nat) (h : d < 10) : digVal (digitChar d) = d := by
  interval_cases d <;> rfl

theorem isDig_digitChar (d : Nat) (h : d < 10) : isDig (digitChar d) = true := by
  interval_cases d <;> rfl

theorem digitsVal_natDigitsF (fuel n : Nat) (h : n < 10 ^ fuel) :
    digitsVal (natDigitsF fuel n) = n := by
  induction fuel generalizing n with
  | zero =>
    simp only [pow_zero, Nat.lt_one_iff] at h
    subst h
    rfl
  | succ f ih =>
    unfold natDigitsF
    split
    case isTrue hn =>
      show digitsVal [digitChar n] = n
      unfold digitsVal
      simp [digVal_digitChar n hn]
    case isFalse hn =>
      rw [digitsVal_append]
      have hdiv : n / 10 < 10 ^ f := by
        rw [Nat.div_lt_iff_lt_mul (by norm_num)]
        calc n < 10 ^ (f + 1) := h
        _ = 10 ^ f * 10 := by rw [pow_succ]
      rw [ih (n / 10) hdiv]
      have : digitsVal [digitChar (n % 10)] = n % 10 := by
        unfold digitsVal
        simp [digVal_digitChar (n % 10) (Nat.mod_lt n (by norm_num))]
      rw [this]
      simp only [List.length_singleton, pow_one]
      omega

theorem digitsVal_natDigits (n : Nat) : digitsVal (natDigits n) = n := by
  refine digitsVal_natDigitsF (n + 1) n ?_
  calc n < 2 ^ n := Nat.lt_two_pow n
  _ ≤ 10 ^ n := Nat.pow_le_pow_left (by norm_num) n
  _ ≤ 10 ^ (n + 1) := Nat.pow_le_pow_right (by norm_num) (Nat.le_succ n)

theorem natDigitsF_mem (fuel n : Nat) :
    ∀ c ∈ natDigitsF fuel n, ∃ d, d < 10 ∧ c = digitChar d := by
  induction fuel generalizing n with
  | zero => intro c hc; cases hc
  | succ f ih =>
    intro c hc
    unfold natDigitsF at hc
    split at hc
    case isTrue hn =>
      simp only [List.mem_singleton] at hc
      exact ⟨n, by assumption, hc⟩
    case isFalse hn =>
      rcases List.mem_append.1 hc with h1 | h1
      · exact ih (n / 10) c h1
      · simp only [List.mem_singleton] at h1
        exact ⟨n % 10, Nat.mod_lt n (by norm_num), h1⟩

theorem natDigits_mem (n : Nat) :
    ∀ c ∈ natDigits n, ∃ d, d < 10 ∧ c = digitChar d :=
  natDigitsF_mem (n + 1) n

theorem natDigitsF_ne_nil (fuel n : Nat) (hf : 0 < fuel) :
    natDigitsF fuel n ≠ [] := by
  cases fuel with
  | zero => omega
  | succ f =>
    unfold natDigitsF
    split
    · simp
    · simp

theorem natDigits_ne_nil (n : Nat) : natDigits n ≠ [] :=
  natDigitsF_ne_nil (n + 1) n (Nat.succ_pos n)

theorem natDigitsF_len (fuel n p : Nat) (h : n < 10 ^ p) (hp : 1 ≤ p) :
    (natDigitsF fuel n).length ≤ p := by
  induction fuel generalizing n p with
  | zero => simp [natDigitsF]
  | succ f ih =>
    unfold natDigitsF
    split
    case isTrue hn => simpa using hp
    case isFalse hn =>
      have hp2 : 2 ≤ p := by
        by_contra hcon
        have hp1 : p = 1 := by omega
        subst hp1
        simp only [pow_one] at h
        omega
      have hdiv : n / 10 < 10 ^ (p - 1) := by
        rw [Nat.div_lt_iff_lt_mul (by norm_num)]
        calc n < 10 ^ p := h
        _ = 10 ^ (p - 1) * 10 := by
              rw [← pow_succ]
              congr 1
              omega
      have := ih (n / 10) (p - 1) hdiv (by omega)
      simp only [List.length_append, List.length_singleton]
      omega

theorem digitsVal_replicate_zero (k : Nat) :
    digitsVal (List.replicate k '0') = 0 := by
  induction k with
  | zero => rfl
  | succ k ih =>
    show digitsVal ('0' :: List.replicate k '0') = 0
    have : digitsVal (List.replicate k '0') = 0 := ih
    unfold digitsVal at this ⊢
    rw [List.foldl_cons]
    have h0 : 10 * 0 + digVal '0' = 0 := rfl
    rw [h0]
    exact this

theorem padFrac_val (p b : Nat) (h : b < 10 ^ p) :
    digitsVal (padFrac p b) = b := by
  unfold padFrac
  rw [digitsVal_append, digitsVal_replicate_zero, digitsVal_natDigits]
  ring

theorem padFrac_len (p b : Nat) (h : b < 10 ^ p) (hp : 1 ≤ p) :
    (padFrac p b).length = p := by
  unfold padFrac
  have hle : (natDigits b).length ≤ p := natDigitsF_len (b + 1) b p h hp
  simp only [List.length_append, List.length_replicate]
  omega

theorem padFrac_mem (p b : Nat) :
    ∀ c ∈ padFrac p b, ∃ d, d < 10 ∧ c = digitChar d := by
  intro c hc
  unfold padFrac at hc
  rcases List.mem_append.1 hc with h1 | h1
  · have : c = '0' := List.eq_of_mem_replicate h1
    exact ⟨0, by norm_num, this⟩
  · exact natDigits_mem b c h1

theorem spanP_all (p : Char → Bool) (xs ys : List Char)
    (hx : ∀ x ∈ xs, p x = true)
    (hy : ∀ c, ys.head? = some c → p c = false) :
    spanP p (xs ++ ys) = (xs, ys) := by
  induction xs with
  | nil =>
    cases ys with
    | nil => rfl
    | cons c ys =>
      have := hy c rfl
      simp [spanP, this]
  | cons x xs ih =>
    have hpx := hx x (by simp)
    have ih2 := ih (fun x hm => hx x (by simp [hm]))
    simp [spanP, hpx, ih2]

theorem digitChar_not_special (d : Nat) (hd : d < 10) :
    digitChar d ≠ '-' ∧ digitChar d ≠ '+' ∧ digitChar d ≠ '.'
      ∧ isDig (digitChar d) = true := by
  interval_cases d <;> exact ⟨by decide, by decide, by decide, rfl⟩

theorem roundHalf_intCast (m : ℤ) : roundHalf ((m : ℚ)) = m := by
  unfold roundHalf
  split
  · rw [add_comm]
    rw [Int.floor_add_int]
    norm_num
  · rw [show -(m : ℚ) + 1 / 2 = 1 / 2 + (-m : ℤ) by push_cast; ring]
    rw [Int.floor_add_int]
    norm_num

theorem spanP_all_univ (p : Char → Bool) (xs : List Char)
    (hx : ∀ x ∈ xs, p x = true) : spanP p xs = (xs, []) := by
  have h := spanP_all p xs [] hx (by intro c hc; simp at hc)
  simpa using h

theorem natDigits_all_dig (n : Nat) : ∀ c ∈ natDigits n, isDig c = true := by
  intro c hc
  obtain ⟨d, hd, hcd⟩ := natDigits_mem n c hc
  subst hcd
  exact isDig_digitChar d hd

theorem padFrac_all_dig (p b : Nat) : ∀ c ∈ padFrac p b, isDig c = true := by
  intro c hc
  obtain ⟨d, hd, hcd⟩ := padFrac_mem p b c hc
  subst hcd
  exact isDig_digitChar d hd

theorem natDigits_isEmpty (n : Nat) : (natDigits n).isEmpty = false := by
  rcases h : natDigits n with _ | _
  · exact absurd h (natDigits_ne_nil n)
  · rfl

theorem parseUnsigned_int (xs : List Char) (hx : ∀ c ∈ xs, isDig c = true)
    (hne : xs.isEmpty = false) : parseUnsigned xs = some (digitsVal xs) := by
  unfold parseUnsigned
  rw [spanP_all_univ isDig xs hx]
  simp [hne]

theorem parseUnsigned_frac (xs fs : List Char)
    (hx : ∀ c ∈ xs, isDig c = true) (hf : ∀ c ∈ fs, isDig c = true)
    (hne : xs.isEmpty = false) :
    parseUnsigned (xs ++ '.' :: fs)
      = some ((digitsVal xs : ℚ) + (digitsVal fs : ℚ) / 10 ^ fs.length) := by
  unfold parseUnsigned
  rw [spanP_all isDig xs ('.' :: fs) hx
    (by intro c hc; simp only [List.head?_cons, Option.some.injEq] at hc
        subst hc; rfl)]
  simp only
  rw [spanP_all_univ isDig fs hf]
  simp [hne]

theorem stripNumSign_neg (cs : List Char) :
    stripNumSign ('-' :: cs) = (true, cs) := rfl

theorem isDig_ne_sign (c : Char) (h : isDig c = true) : c ≠ '-' ∧ c ≠ '+' := by
  constructor
  · intro he
    subst he
    simp [isDig] at h
  · intro he
    subst he
    simp [isDig] at h

theorem stripNumSign_of_digit (cs : List Char)
    (h : ∀ c, cs.head? = some c → isDig c = true) (hne : cs ≠ []) :
    stripNumSign cs = (false, cs) := by
  cases cs with
  | nil => exact absurd rfl hne
  | cons c cs =>
    obtain ⟨h1, h2⟩ := isDig_ne_sign c (h c rfl)
    simp [stripNumSign, h1, h2]

theorem parseRat_fmtScaled (m : ℤ) (p : Nat) :
    parseRat (fmtScaled m p) = some ((m : ℚ) / 10 ^ p) := by
  have hpow : (0:ℚ) < 10 ^ p := by positivity
  have hBlt : m.natAbs % 10 ^ p < 10 ^ p := Nat.mod_lt _ (by positivity)
  have hD : parseUnsigned (if p = 0 then natDigits m.natAbs
        else natDigits (m.natAbs / 10 ^ p) ++ '.' :: padFrac p (m.natAbs % 10 ^ p))
      = some ((m.natAbs : ℚ) / 10 ^ p) := by
    by_cases hp : p = 0
    · subst hp
      rw [if_pos rfl,
        parseUnsigned_int _ (natDigits_all_dig _) (natDigits_isEmpty _),
        digitsVal_natDigits]
      norm_num
    · rw [if_neg hp,
        parseUnsigned_frac _ _ (natDigits_all_dig _) (padFrac_all_dig _ _)
          (natDigits_isEmpty _),
        digitsVal_natDigits, padFrac_val p _ hBlt, padFrac_len p _ hBlt (by omega)]
      congr 1
      rw [eq_div_iff (by positivity : ((10:ℚ)) ^ p ≠ 0)]
      have hkey : 10 ^ p * (m.natAbs / 10 ^ p) + m.natAbs % 10 ^ p = m.natAbs :=
        Nat.div_add_mod m.natAbs (10 ^ p)
      have hkeyq : (10:ℚ) ^ p * ((m.natAbs / 10 ^ p : ℕ) : ℚ)
          + ((m.natAbs % 10 ^ p : ℕ) : ℚ) = (m.natAbs : ℚ) := by
        exact_mod_cast congrArg (fun n : ℕ => (n : ℚ)) hkey
      field_simp
      linarith [hkeyq]
  unfold fmtScaled
  by_cases hm : m < 0
  · rw [if_pos hm]
    show parseRat ('-' :: _) = _
    unfold parseRat
    rw [stripNumSign_neg]
    have hcast : (m.natAbs : ℚ) = -(m : ℚ) := by
      rw [@Int.cast_natAbs ℚ _ m]
      exact_mod_cast abs_of_neg hm
    simp [hD, hcast, neg_div]
  · rw [if_neg hm]
    simp only [List.nil_append]
    unfold parseRat
    rw [stripNumSign_of_digit]
    · have hcast : (m.natAbs : ℚ) = (m : ℚ) := by
        rw [@Int.cast_natAbs ℚ _ m]
        exact_mod_cast abs_of_nonneg (not_lt.1 hm)
      simp [hD, hcast]
    · intro c hc
      by_cases hp : p = 0
      · subst hp
        rw [if_pos rfl] at hc
        rcases hne : natDigits m.natAbs with _ | ⟨c0, cs0⟩
        · exact absurd hne (natDigits_ne_nil _)
        · rw [hne] at hc
          simp only [List.head?_cons, Option.some.injEq] at hc
          subst hc
          exact natDigits_all_dig _ c0 (by rw [hne]; simp)
      · rw [if_neg hp] at hc
        rcases hne : natDigits (m.natAbs / 10 ^ p) with _ | ⟨c0, cs0⟩
        · exact absurd hne (natDigits_ne_nil _)
        · rw [hne] at hc
          simp only [List.cons_append, List.head?_cons, Option.some.injEq] at hc
          subst hc
          exact natDigits_all_dig _ c0 (by rw [hne]; simp)
    · by_cases hp : p = 0
      · subst hp
        rw [if_pos rfl]
        exact natDigits_ne_nil _
      · rw [if_neg hp]
        intro hcon
        exact natDigits_ne_nil _ (List.append_eq_nil.1 hcon).1

theorem parseRat_fmtFixed (q : ℚ) (p : Nat) :
    parseRat (fmtFixed q p) = some (roundFix q p) :=
  parseRat_fmtScaled (roundHalf (q * 10 ^ p)) p

theorem fmtFixed_roundFix (q : ℚ) (p : Nat) :
    fmtFixed (roundFix q p) p = fmtFixed q p := by
  unfold fmtFixed roundFix
  have h10 : ((10:ℚ)) ^ p ≠ 0 := by positivity
  rw [div_mul_cancel₀ _ h10, roundHalf_intCast]

/-! ## Supporting lemmas: characters of rendered numbers -/

theorem fmtScaled_mem (m : ℤ) (p : Nat) :
    ∀ c ∈ fmtScaled m p,
      c = '-' ∨ c = '.' ∨ ∃ d, d < 10 ∧ c = digitChar d := by
  intro c hc
  unfold fmtScaled at hc
  rcases List.mem_append.1 hc with h1 | h1
  · left
    split at h1
    · simpa using h1
    · cases h1
  · split at h1
    · exact Or.inr (Or.inr (natDigits_mem _ c h1))
    · rcases List.mem_append.1 h1 with h2 | h2
      · exact Or.inr (Or.inr (natDigits_mem _ c h2))
      · rcases List.mem_cons.1 h2 with h3 | h3
        · exact Or.inr (Or.inl h3)
        · exact Or.inr (Or.inr (padFrac_mem _ _ c h3))

theorem numChar_ne (c : Char)
    (h : c = '-' ∨ c = '.' ∨ ∃ d, d < 10 ∧ c = digitChar d)
    (x : Char) (hx1 : x ≠ '-') (hx2 : x ≠ '.') (hx3 : isDig x = false) :
    c ≠ x := by
  rcases h with h | h | ⟨d, hd, h⟩
  · subst h; exact fun he => hx1 he.symm
  · subst h; exact fun he => hx2 he.symm
  · subst h
    intro he
    have hdig := isDig_digitChar d hd
    rw [he] at hdig
    rw [hdig] at hx3
    cases hx3

theorem numChar_not_ws (c : Char)
    (h : c = '-' ∨ c = '.' ∨ ∃ d, d < 10 ∧ c = digitChar d) :
    isWS c = false := by
  rcases h with h | h | ⟨d, hd, h⟩
  · subst h; rfl
  · subst h; rfl
  · subst h; interval_cases d <;> rfl

theorem fmtScaled_ne_nil (m : ℤ) (p : Nat) : fmtScaled m p ≠ [] := by
  unfold fmtScaled
  intro hcon
  have h2 := (List.append_eq_nil.1 hcon).2
  split at h2
  · exact natDigits_ne_nil _ h2
  · exact natDigits_ne_nil _ (List.append_eq_nil.1 h2).1

theorem getLast?_of_all (P : Char → Prop) (cs : List Char) (hne : cs ≠ [])
    (h : ∀ c ∈ cs, P c) : ∃ c, cs.getLast? = some c ∧ P c :=
  ⟨cs.getLast hne, List.getLast?_eq_getLast cs hne, h _ (List.getLast_mem hne)⟩

theorem padFrac_ne_nil (p b : Nat) : padFrac p b ≠ [] := by
  unfold padFrac
  intro h
  exact natDigits_ne_nil b (List.append_eq_nil.1 h).2

theorem fmtScaled_getLast (m : ℤ) (p : Nat) :
    ∃ d, d < 10 ∧ (fmtScaled m p).getLast? = some (digitChar d) := by
  unfold fmtScaled
  have hD : ∃ d, d < 10 ∧
      (if p = 0 then natDigits m.natAbs
       else natDigits (m.natAbs / 10 ^ p) ++ '.' :: padFrac p (m.natAbs % 10 ^ p)).getLast?
        = some (digitChar d) := by
    split
    · obtain ⟨c, hc, ⟨d, hd, hcd⟩⟩ := getLast?_of_all _ (natDigits m.natAbs)
        (natDigits_ne_nil _) (natDigits_mem _)
      exact ⟨d, hd, by rw [hc, hcd]⟩
    · rw [show natDigits (m.natAbs / 10 ^ p) ++ '.' :: padFrac p (m.natAbs % 10 ^ p)
          = (natDigits (m.natAbs / 10 ^ p) ++ ['.']) ++ padFrac p (m.natAbs % 10 ^ p) by
        simp]
      rw [List.getLast?_append_of_ne_nil _ (padFrac_ne_nil _ _)]
      obtain ⟨c, hc, ⟨d, hd, hcd⟩⟩ := getLast?_of_all _ (padFrac p (m.natAbs % 10 ^ p))
        (padFrac_ne_nil _ _) (padFrac_mem _ _)
      exact ⟨d, hd, by rw [hc, hcd]⟩
  obtain ⟨d, hd, hD2⟩ := hD
  refine ⟨d, hd, ?_⟩
  split
  case isTrue =>
    rw [List.getLast?_append_of_ne_nil]
    · exact hD2
    · split
      · exact natDigits_ne_nil _
      · intro h
        exact natDigits_ne_nil _ (List.append_eq_nil.1 h).1
  case isFalse =>
    simpa using hD2

/-! ## Supporting lemmas: trimming and membership -/

theorem mem_of_head? (cs : List Char) (c : Char) (h : cs.head? = some c) :
    c ∈ cs := by
  cases cs with
  | nil => cases h
  | cons x xs =>
    simp only [List.head?_cons, Option.some.injEq] at h
    subst h
    simp

theorem mem_of_getLast? (cs : List Char) (c : Char) (h : cs.getLast? = some c) :
    c ∈ cs := by
  have hne : cs ≠ [] := by
    intro he
    subst he
    cases h
  rw [List.getLast?_eq_getLast cs hne] at h
  injection h with h
  subst h
  exact List.getLast_mem hne

theorem trimL_eq_self (cs : List Char)
    (h : ∀ c, cs.head? = some c → isWS c = false) : trimL cs = cs := by
  cases cs with
  | nil => rfl
  | cons c cs' =>
    unfold trimL
    rw [h c rfl]
    simp

theorem trimR_eq_self (cs : List Char)
    (h : ∀ c, cs.getLast? = some c → isWS c = false) : trimR cs = cs := by
  unfold trimR
  rw [trimL_eq_self cs.reverse]
  · exact List.reverse_reverse cs
  · intro c hc
    apply h
    rwa [List.head?_reverse] at hc

theorem trim_eq_self (cs : List Char)
    (hh : ∀ c, cs.head? = some c → isWS c = false)
    (hl : ∀ c, cs.getLast? = some c → isWS c = false) : trim cs = cs := by
  unfold trim
  rw [trimL_eq_self cs hh, trimR_eq_self cs hl]

theorem isEmpty_eq_false (cs : List Char) (h : cs ≠ []) : cs.isEmpty = false := by
  cases cs with
  | nil => exact absurd rfl h
  | cons x xs => rfl

theorem contains_false (cs : List Char) (c : Char)
    (h : ∀ x ∈ cs, x ≠ c) : cs.contains c = false := by
  induction cs with
  | nil => rfl
  | cons x xs ih =>
    have hx := h x (by simp)
    have ihh := ih (fun y hy => h y (by simp [hy]))
    simp only [List.contains_cons, Bool.or_eq_false_iff]
    constructor
    · simp only [beq_eq_false_iff_ne, ne_eq]
      intro he
      exact hx (by simp [he])
    · exact ihh

/-! ## Supporting lemmas: coordinate-token round trip -/

theorem digitChar_ne_suffix (d : Nat) (hd : d < 10) :
    digitChar d ≠ 'd' ∧ digitChar d ≠ 'r' ∧ digitChar d ≠ 'p' ∧
    digitChar d ≠ 'i' ∧ digitChar d ≠ quoteChar ∧ digitChar d ≠ arcminChar := by
  interval_cases d <;>
    exact ⟨by decide, by decide, by decide, by decide, by decide, by decide⟩

theorem fmtFixed_trim (q : ℚ) (p : Nat) : trim (fmtFixed q p) = fmtFixed q p := by
  refine trim_eq_self _ (fun c hc => ?_) (fun c hc => ?_)
  · exact numChar_not_ws c (fmtScaled_mem _ _ c (mem_of_head? _ c hc))
  · exact numChar_not_ws c (fmtScaled_mem _ _ c (mem_of_getLast? _ c hc))

theorem fmtFixed_contains (q : ℚ) (p : Nat) (x : Char) (hx1 : x ≠ '-')
    (hx2 : x ≠ '.') (hx3 : isDig x = false) :
    (fmtFixed q p).contains x = false :=
  contains_false _ _ (fun c hc => numChar_ne c (fmtScaled_mem _ _ c hc) x hx1 hx2 hx3)

theorem parseCoordToken_fmtFixed (fr : Frame) (i : Nat) (q : ℚ) (p : Nat) :
    parseCoordToken fr i (fmtFixed q p)
      = some ⟨roundFix q p, if fr.isSky then CUnit.deg else CUnit.pix⟩ := by
  have hne := fmtScaled_ne_nil (roundHalf (q * 10 ^ p)) p
  obtain ⟨d, hd, hlast⟩ := fmtScaled_getLast (roundHalf (q * 10 ^ p)) p
  obtain ⟨s1, s2, s3, s4, s5, s6⟩ := digitChar_ne_suffix d hd
  have hemp : (fmtFixed q p).isEmpty = false := isEmpty_eq_false (fmtFixed q p) hne
  have hlast2 : (fmtFixed q p).getLast? = some (digitChar d) := hlast
  have hpi : (decide (digitChar d = 'p') || decide (digitChar d = 'i')) = false := by
    rw [decide_eq_false s3, decide_eq_false s4]
    rfl
  unfold parseCoordToken
  simp only [fmtFixed_trim, hemp,
    fmtFixed_contains q p ':' (by decide) (by decide) (by decide),
    fmtFixed_contains q p 'h' (by decide) (by decide) (by decide),
    fmtFixed_contains q p 'm' (by decide) (by decide) (by decide),
    hlast2, Bool.false_eq_true, if_false, if_neg s1, if_neg s2, if_neg s5,
    if_neg s6, hpi, parseRat_fmtFixed, Option.map_some']

theorem dropLast_concat_char (xs : List Char) (c : Char) :
    (xs ++ [c]).dropLast = xs := by simp

theorem parseCoordToken_fmtFixed_suffix (fr : Frame) (i : Nat) (q : ℚ)
    (p : Nat) (sfx : Char) (u : CUnit)
    (hs : (sfx = quoteChar ∧ u = .arcsec) ∨ (sfx = arcminChar ∧ u = .arcmin))
    (hws : isWS sfx = false) :
    parseCoordToken fr i (fmtFixed q p ++ [sfx])
      = some ⟨roundFix q p, u⟩ := by
  have hne := fmtScaled_ne_nil (roundHalf (q * 10 ^ p)) p
  have hmem : ∀ c ∈ fmtFixed q p ++ [sfx],
      (c = '-' ∨ c = '.' ∨ (∃ d, d < 10 ∧ c = digitChar d)) ∨ c = sfx := by
    intro c hc
    rcases List.mem_append.1 hc with h1 | h1
    · exact Or.inl (fmtScaled_mem _ _ c h1)
    · simp only [List.mem_singleton] at h1
      exact Or.inr h1
  have hcont : ∀ x : Char, x ≠ '-' → x ≠ '.' → isDig x = false → sfx ≠ x →
      (fmtFixed q p ++ [sfx]).contains x = false := by
    intro x hx1 hx2 hx3 hx4
    refine contains_false _ _ (fun c hc => ?_)
    rcases hmem c hc with h | h
    · exact numChar_ne c h x hx1 hx2 hx3
    · subst h
      exact hx4
  have hsfxq : sfx ≠ ':' ∧ sfx ≠ 'h' ∧ sfx ≠ 'm' ∧ sfx ≠ 'd' ∧ sfx ≠ 'r' ∧
      sfx ≠ 'p' ∧ sfx ≠ 'i' := by
    rcases hs with ⟨h1, _⟩ | ⟨h1, _⟩ <;> subst h1 <;>
      exact ⟨by decide, by decide, by decide, by decide, by decide,
        by decide, by decide⟩
  obtain ⟨x1, x2, x3, x4, x5, x6, x7⟩ := hsfxq
  have htrim : trim (fmtFixed q p ++ [sfx]) = fmtFixed q p ++ [sfx] := by
    refine trim_eq_self _ (fun c hc => ?_) (fun c hc => ?_)
    · obtain ⟨c0, cs0, hcc⟩ := List.exists_cons_of_ne_nil hne
      have hcc2 : fmtFixed q p = c0 :: cs0 := hcc
      rw [hcc2] at hc
      simp only [List.cons_append, List.head?_cons, Option.some.injEq] at hc
      refine numChar_not_ws _ (fmtScaled_mem (roundHalf (q * 10 ^ p)) p _ ?_)
      rw [← hc, show fmtScaled (roundHalf (q * 10 ^ p)) p = c0 :: cs0 from hcc]
      simp
    · rw [List.getLast?_concat] at hc
      injection hc with hc
      subst hc
      exact hws
  have hemp : (fmtFixed q p ++ [sfx]).isEmpty = false :=
    isEmpty_eq_false _ (by
      intro hcon
      exact hne (List.append_eq_nil.1 hcon).1)
  have hlast2 : (fmtFixed q p ++ [sfx]).getLast? = some sfx :=
    List.getLast?_concat _
  unfold parseCoordToken
  rcases hs with ⟨h1, h2⟩ | ⟨h1, h2⟩ <;> subst h1 <;> subst h2
  · simp only [htrim, hemp,
      hcont ':' (by decide) (by decide) (by decide) x1,
      hcont 'h' (by decide) (by decide) (by decide) x2,
      hcont 'm' (by decide) (by decide) (by decide) x3,
      hlast2, Bool.false_eq_true, if_false,
      if_neg (show ¬quoteChar = 'd' from by decide),
      if_neg (show ¬quoteChar = 'r' from by decide),
      if_pos (show quoteChar = quoteChar from rfl),
      show (decide (quoteChar = 'p') || decide (quoteChar = 'i')) = false
        from by decide,
      dropLast_concat_char, parseRat_fmtFixed, Option.map_some', if_true]
  · simp only [htrim, hemp,
      hcont ':' (by decide) (by decide) (by decide) x1,
      hcont 'h' (by decide) (by decide) (by decide) x2,
      hcont 'm' (by decide) (by decide) (by decide) x3,
      hlast2, Bool.false_eq_true, if_false,
      if_neg (show ¬arcminChar = 'd' from by decide),
      if_neg (show ¬arcminChar = 'r' from by decide),
      if_neg (show ¬arcminChar = quoteChar from by decide),
      if_pos (show arcminChar = arcminChar from rfl),
      show (decide (arcminChar = 'p') || decide (arcminChar = 'i')) = false
        from by decide,
      dropLast_concat_char, parseRat_fmtFixed, Option.map_some', if_true]

theorem parseCoordToken_coordChars (fr : Frame) (p : Nat) (ru : Option RadUnit)
    (rt : RegionType) (i : Nat) (q : ℚ) :
    parseCoordToken fr i (coordChars fr p ru rt i q)
      = some (reQuantity fr p ru rt i q) := by
  unfold coordChars reQuantity
  by_cases hsr : (fr.isSky && isRadiusArg rt i) = true
  · rw [if_pos hsr, if_pos hsr]
    have hsky : fr.isSky = true := by
      have h2 : fr.isSky = true ∧ isRadiusArg rt i = true := by simpa using hsr
      exact h2.1
    cases ru with
    | none =>
      rw [parseCoordToken_fmtFixed, hsky]
      rfl
    | some ruv =>
      cases ruv with
      | arcsec =>
        exact parseCoordToken_fmtFixed_suffix fr i (q * 3600) p quoteChar
          .arcsec (Or.inl ⟨rfl, rfl⟩) (by decide)
      | arcmin =>
        exact parseCoordToken_fmtFixed_suffix fr i (q * 60) p arcminChar
          .arcmin (Or.inr ⟨rfl, rfl⟩) (by decide)
  · rw [if_neg hsr, if_neg hsr, parseCoordToken_fmtFixed]

theorem reQuantity_toDeg (fr : Frame) (p : Nat) (ru : Option RadUnit)
    (rt : RegionType) (i : Nat) (q : ℚ) (hsky : fr.isSky = true) :
    (reQuantity fr p ru rt i q).toDeg = some (roundCoord fr p ru rt i q) := by
  unfold reQuantity roundCoord
  by_cases hsr : (fr.isSky && isRadiusArg rt i) = true
  · rw [if_pos hsr, if_pos hsr]
    cases ru with
    | none => rfl
    | some ruv =>
      cases ruv with
      | arcsec => rfl
      | arcmin => rfl
  · rw [if_neg hsr, if_neg hsr, hsky]
    rfl

theorem reQuantity_toPix (fr : Frame) (p : Nat) (ru : Option RadUnit)
    (rt : RegionType) (i : Nat) (q : ℚ) (hsky : fr.isSky = false) :
    (reQuantity fr p ru rt i q).toPix = some (roundCoord fr p ru rt i q) := by
  have hsr : (fr.isSky && isRadiusArg rt i) = false := by rw [hsky]; rfl
  unfold reQuantity roundCoord
  rw [if_neg (show ¬(fr.isSky && isRadiusArg rt i) = true by simp [hsr])]
  rw [if_neg (show ¬(fr.isSky && isRadiusArg rt i) = true by simp [hsr])]
  rw [hsky]
  rfl

theorem parseCoords_rendered (fr : Frame) (p : Nat) (ru : Option RadUnit)
    (rt : RegionType) (i : Nat) (qs : List ℚ) :
    parseCoords fr i (mapIdxFrom (coordChars fr p ru rt) i qs)
      = some (mapIdxQ (reQuantity fr p ru rt) i qs) := by
  induction qs generalizing i with
  | nil => rfl
  | cons q qs ih =>
    show parseCoords fr i (coordChars fr p ru rt i q ::
      mapIdxFrom (coordChars fr p ru rt) (i + 1) qs) = _
    unfold parseCoords
    rw [parseCoordToken_coordChars]
    simp only [Option.bind_eq_bind, Option.some_bind]
    rw [ih (i + 1)]
    rfl

theorem mapM_toDeg_reQ (fr : Frame) (p : Nat) (ru : Option RadUnit)
    (rt : RegionType) (hsky : fr.isSky = true) (i : Nat) (qs : List ℚ) :
    (mapIdxQ (reQuantity fr p ru rt) i qs).mapM Quantity.toDeg
      = some (mapIdxC (roundCoord fr p ru rt) i qs) := by
  induction qs generalizing i with
  | nil => rfl
  | cons q qs ih =>
    show (reQuantity fr p ru rt i q :: mapIdxQ (reQuantity fr p ru rt) (i + 1) qs).mapM
      Quantity.toDeg = _
    rw [List.mapM_cons, reQuantity_toDeg fr p ru rt i q hsky, ih (i + 1)]
    rfl

theorem mapM_toPix_reQ (fr : Frame) (p : Nat) (ru : Option RadUnit)
    (rt : RegionType) (hsky : fr.isSky = false) (i : Nat) (qs : List ℚ) :
    (mapIdxQ (reQuantity fr p ru rt) i qs).mapM Quantity.toPix
      = some (mapIdxC (roundCoord fr p ru rt) i qs) := by
  induction qs generalizing i with
  | nil => rfl
  | cons q qs ih =>
    show (reQuantity fr p ru rt i q :: mapIdxQ (reQuantity fr p ru rt) (i + 1) qs).mapM
      Quantity.toPix = _
    rw [List.mapM_cons, reQuantity_toPix fr p ru rt i q hsky, ih (i + 1)]
    rfl

theorem mapIdxQ_length (f : Nat → ℚ → Quantity) (i : Nat) (qs : List ℚ) :
    (mapIdxQ f i qs).length = qs.length := by
  induction qs generalizing i with
  | nil => rfl
  | cons q qs ih =>
    show (f i q :: mapIdxQ f (i + 1) qs).length = _
    simp [ih (i + 1)]

theorem mapIdxC_length (f : Nat → ℚ → ℚ) (i : Nat) (qs : List ℚ) :
    (mapIdxC f i qs).length = qs.length := by
  induction qs generalizing i with
  | nil => rfl
  | cons q qs ih =>
    show (f i q :: mapIdxC f (i + 1) qs).length = _
    simp [ih (i + 1)]

theorem mapIdxFrom_length (f : Nat → ℚ → List Char) (i : Nat) (qs : List ℚ) :
    (mapIdxFrom f i qs).length = qs.length := by
  induction qs generalizing i with
  | nil => rfl
  | cons q qs ih =>
    show (f i q :: mapIdxFrom f (i + 1) qs).length = _
    simp [ih (i + 1)]

/-! ## Supporting lemmas: metadata rendering round trip -/

theorem metaTokensAux_plain_cons (cur : List Char) (c : Char) (cs : List Char) :
    metaTokensAux .plain cur (c :: cs)
      = if isWS c then
          (if cur.isEmpty then metaTokensAux .plain [] cs
           else cur.reverse :: metaTokensAux .plain [] cs)
        else if c = quoteChar then metaTokensAux .quoted (c :: cur) cs
        else if c = braceOpen then metaTokensAux .braced (c :: cur) cs
        else metaTokensAux .plain (c :: cur) cs := rfl

theorem metaTokensAux_quoted_cons (cur : List Char) (c : Char) (cs : List Char) :
    metaTokensAux .quoted cur (c :: cs)
      = if c = quoteChar then metaTokensAux .plain (c :: cur) cs
        else metaTokensAux .quoted (c :: cur) cs := rfl

theorem metaTokensAux_nil (mode : ScanMode) (cur : List Char) :
    metaTokensAux mode cur [] = if cur.isEmpty then [] else [cur.reverse] := by
  cases mode <;> rfl

theorem badKeyChar_props (c : Char) (h : badKeyChar c = false) :
    isWS c = false ∧ c ≠ '=' ∧ c ≠ '#' ∧ c ≠ ';' ∧ c ≠ '\n' ∧
    c ≠ quoteChar ∧ c ≠ braceOpen ∧ c ≠ braceClose := by
  unfold badKeyChar at h
  simp only [Bool.or_eq_false_iff, decide_eq_false_iff_not] at h
  exact ⟨h.1.1.1.1.1.1.1, h.1.1.1.1.1.1.2, h.1.1.1.1.1.2, h.1.1.1.1.2,
    h.1.1.1.2, h.1.1.2, h.1.2, h.2⟩

theorem badValChar_props (c : Char) (h : badValChar c = false) :
    c ≠ '#' ∧ c ≠ ';' ∧ c ≠ '\n' ∧ c ≠ quoteChar ∧ c ≠ braceOpen ∧
    c ≠ braceClose := by
  unfold badValChar at h
  simp only [Bool.or_eq_false_iff, decide_eq_false_iff_not] at h
  exact ⟨h.1.1.1.1.1, h.1.1.1.1.2, h.1.1.1.2, h.1.1.2, h.1.2, h.2⟩

theorem scanPlainRun (xs : List Char)
    (h : ∀ c ∈ xs, isWS c = false ∧ c ≠ quoteChar ∧ c ≠ braceOpen) :
    ∀ (cur rest : List Char),
      metaTokensAux .plain cur (xs ++ rest)
        = metaTokensAux .plain (xs.reverse ++ cur) rest := by
  induction xs with
  | nil => intro cur rest; rfl
  | cons x xs ih =>
    intro cur rest
    obtain ⟨h1, h2, h3⟩ := h x (by simp)
    show metaTokensAux .plain cur (x :: (xs ++ rest)) = _
    rw [metaTokensAux_plain_cons, h1]
    simp only [Bool.false_eq_true, if_false, if_neg h2, if_neg h3]
    rw [ih (fun c hc => h c (by simp [hc])) (x :: cur) rest]
    congr 1
    simp

theorem scanQuoted (v : List Char) (h : ∀ c ∈ v, c ≠ quoteChar) :
    ∀ (cur rest : List Char),
      metaTokensAux .quoted cur (v ++ quoteChar :: rest)
        = metaTokensAux .plain (quoteChar :: (v.reverse ++ cur)) rest := by
  induction v with
  | nil =>
    intro cur rest
    show metaTokensAux .quoted cur (quoteChar :: rest) = _
    rw [metaTokensAux_quoted_cons, if_pos rfl]
    congr 1
  | cons c v ih =>
    intro cur rest
    obtain hc := h c (by simp)
    show metaTokensAux .quoted cur (c :: (v ++ quoteChar :: rest)) = _
    rw [metaTokensAux_quoted_cons, if_neg hc]
    rw [ih (fun y hy => h y (by simp [hy])) (c :: cur) rest]
    congr 2
    simp

theorem scanToken (k : List Char) (v : MetaVal)
    (hk : ∀ c ∈ k, badKeyChar c = false) (hv : wfValB v = true) :
    ∀ rest, metaTokensAux .plain [] ((k ++ '=' :: renderValue v) ++ rest)
      = metaTokensAux .plain ((k ++ '=' :: renderValue v).reverse) rest := by
  intro rest
  have hkgood : ∀ c ∈ k, isWS c = false ∧ c ≠ quoteChar ∧ c ≠ braceOpen := by
    intro c hc
    obtain ⟨p1, _, _, _, _, p6, p7, _⟩ := badKeyChar_props c (hk c hc)
    exact ⟨p1, p6, p7⟩
  cases v with
  | bool b =>
    have hall : ∀ c ∈ k ++ '=' :: renderValue (.bool b),
        isWS c = false ∧ c ≠ quoteChar ∧ c ≠ braceOpen := by
      intro c hc
      rcases List.mem_append.1 hc with h1 | h1
      · exact hkgood c h1
      · rcases List.mem_cons.1 h1 with h2 | h2
        · subst h2; exact ⟨rfl, by decide, by decide⟩
        · cases b
          · have h3 : renderValue (.bool false) = ("0").data := rfl
            rw [h3] at h2
            have h4 : c = '0' := by simpa using h2
            subst h4
            exact ⟨rfl, by decide, by decide⟩
          · have h3 : renderValue (.bool true) = ("1").data := rfl
            rw [h3] at h2
            have h4 : c = '1' := by simpa using h2
            subst h4
            exact ⟨rfl, by decide, by decide⟩
    rw [scanPlainRun _ hall [] rest]
    simp
  | str u =>
    have hugood : ∀ c ∈ u, c ≠ quoteChar ∧ c ≠ braceOpen := by
      intro c hc
      unfold wfValB at hv
      have h2 := List.all_eq_true.1 hv c hc
      simp only [Bool.not_eq_true'] at h2
      obtain ⟨_, _, _, q4, q5, _⟩ := badValChar_props c h2
      exact ⟨q4, q5⟩
    by_cases hws : u.any isWS
    · have hrv : renderValue (.str u) = quoteChar :: u ++ [quoteChar] := by
        show (if u.any isWS then quoteChar :: u ++ [quoteChar] else u) = _
        rw [if_pos hws]
      rw [hrv]
      rw [show (k ++ '=' :: (quoteChar :: u ++ [quoteChar])) ++ rest
          = (k ++ ['=']) ++ (quoteChar :: (u ++ quoteChar :: rest)) by simp]
      have hke : ∀ c ∈ k ++ ['='],
          isWS c = false ∧ c ≠ quoteChar ∧ c ≠ braceOpen := by
        intro c hc
        rcases List.mem_append.1 hc with h1 | h1
        · exact hkgood c h1
        · simp only [List.mem_singleton] at h1
          subst h1
          exact ⟨rfl, by decide, by decide⟩
      rw [scanPlainRun _ hke [] (quoteChar :: (u ++ quoteChar :: rest))]
      rw [metaTokensAux_plain_cons]
      rw [show isWS quoteChar = false from rfl]
      simp only [Bool.false_eq_true, if_false, if_pos rfl]
      rw [scanQuoted u (fun c hc => (hugood c hc).1)]
      congr 1
      simp
    · have hrv : renderValue (.str u) = u := by
        show (if u.any isWS then quoteChar :: u ++ [quoteChar] else u) = _
        rw [if_neg hws]
      rw [hrv]
      have hall : ∀ c ∈ k ++ '=' :: u,
          isWS c = false ∧ c ≠ quoteChar ∧ c ≠ braceOpen := by
        intro c hc
        rcases List.mem_append.1 hc with h1 | h1
        · exact hkgood c h1
        · rcases List.mem_cons.1 h1 with h2 | h2
          · subst h2; exact ⟨rfl, by decide, by decide⟩
          · refine ⟨?_, (hugood c h2).1, (hugood c h2).2⟩
            have hna : ¬(u.any isWS = true) := hws
            rw [List.any_eq_true] at hna
            by_cases hcw : isWS c = true
            · exact absurd ⟨c, h2, hcw⟩ hna
            · simpa using hcw
      rw [scanPlainRun _ hall [] rest]
      simp

theorem metaTokens_renderPairs (m : Meta)
    (h : ∀ kv ∈ m, (∀ c ∈ kv.1, badKeyChar c = false) ∧ wfValB kv.2 = true) :
    metaTokens (renderPairs m)
      = m.map (fun kv => kv.1 ++ '=' :: renderValue kv.2) := by
  induction m with
  | nil => rfl
  | cons kv m' ih =>
    cases m' with
    | nil =>
      obtain ⟨hk, hv⟩ := h kv (by simp)
      show metaTokensAux .plain [] (kv.1 ++ '=' :: renderValue kv.2) = _
      rw [show kv.1 ++ '=' :: renderValue kv.2
          = (kv.1 ++ '=' :: renderValue kv.2) ++ [] by simp]
      rw [scanToken kv.1 kv.2 hk hv []]
      rw [metaTokensAux_nil]
      rw [if_neg (show ¬((kv.1 ++ '=' :: renderValue kv.2).reverse.isEmpty = true)
        by simp)]
      simp
    | cons kv2 m'' =>
      obtain ⟨hk, hv⟩ := h kv (by simp)
      show metaTokensAux .plain []
        ((kv.1 ++ '=' :: renderValue kv.2) ++ ' ' :: renderPairs (kv2 :: m'')) = _
      rw [scanToken kv.1 kv.2 hk hv (' ' :: renderPairs (kv2 :: m''))]
      rw [metaTokensAux_plain_cons]
      rw [show isWS ' ' = true from rfl]
      simp only [if_true]
      rw [if_neg (show ¬((kv.1 ++ '=' :: renderValue kv.2).reverse.isEmpty = true)
        by simp)]
      have ih2 := ih (fun kv3 hm => h kv3 (by simp [hm]))
      show (kv.1 ++ '=' :: renderValue kv.2).reverse.reverse ::
        metaTokens (renderPairs (kv2 :: m'')) = _
      rw [ih2]
      simp

theorem splitFirst_append (sep : Char) (xs ys : List Char)
    (h : ∀ c ∈ xs, c ≠ sep) : splitFirst sep (xs ++ sep :: ys) = some (xs, ys) := by
  induction xs with
  | nil =>
    show splitFirst sep (sep :: ys) = _
    unfold splitFirst
    rw [if_pos rfl]
  | cons x xs ih =>
    have hx := h x (by simp)
    show splitFirst sep (x :: (xs ++ sep :: ys)) = _
    unfold splitFirst
    rw [if_neg hx, ih (fun c hc => h c (by simp [hc]))]

theorem splitFirst_none (sep : Char) (xs : List Char)
    (h : ∀ c ∈ xs, c ≠ sep) : splitFirst sep xs = none := by
  induction xs with
  | nil => rfl
  | cons x xs ih =>
    have hx := h x (by simp)
    unfold splitFirst
    rw [if_neg hx, ih (fun c hc => h c (by simp [hc]))]

theorem groupPairsAux_cons (cur : Option (List Char × List Char))
    (t : List Char) (ts : List (List Char)) :
    groupPairsAux cur (t :: ts)
      = match splitFirst '=' t with
        | some kv2 =>
          (match cur with
           | none => groupPairsAux (some kv2) ts
           | some kv => kv :: groupPairsAux (some kv2) ts)
        | none =>
          (match cur with
           | none => groupPairsAux none ts
           | some kv => groupPairsAux (some (kv.1, kv.2 ++ ' ' :: t)) ts) := rfl

theorem groupPairsAux_tokens (m : Meta)
    (hk : ∀ kv ∈ m, ∀ c ∈ kv.1, c ≠ '=') :
    ∀ cur, groupPairsAux (some cur)
        (m.map (fun kv => kv.1 ++ '=' :: renderValue kv.2))
      = cur :: m.map (fun kv => (kv.1, renderValue kv.2)) := by
  induction m with
  | nil => intro cur; rfl
  | cons kv m' ih =>
    intro cur
    show groupPairsAux (some cur) ((kv.1 ++ '=' :: renderValue kv.2) :: _) = _
    rw [groupPairsAux_cons,
      splitFirst_append '=' kv.1 (renderValue kv.2) (hk kv (by simp))]
    simp only
    rw [ih (fun kv3 hm => hk kv3 (by simp [hm])) (kv.1, renderValue kv.2)]
    rfl

theorem groupPairsJoin_tokens (m : Meta)
    (hk : ∀ kv ∈ m, ∀ c ∈ kv.1, c ≠ '=') :
    groupPairsJoin (m.map (fun kv => kv.1 ++ '=' :: renderValue kv.2))
      = m.map (fun kv => (kv.1, renderValue kv.2)) := by
  cases m with
  | nil => rfl
  | cons kv m' =>
    show groupPairsAux none ((kv.1 ++ '=' :: renderValue kv.2) :: _) = _
    rw [groupPairsAux_cons,
      splitFirst_append '=' kv.1 (renderValue kv.2) (hk kv (by simp))]
    simp only
    rw [groupPairsAux_tokens m' (fun kv3 hm => hk kv3 (by simp [hm]))
      (kv.1, renderValue kv.2)]
    rfl

theorem pairVal_roundtrip (k : List Char) (v : MetaVal)
    (hv : wfValB v = true) (hki : k ≠ inclKey) :
    normalizeVal k (stripDelims (renderValue v)) = reVal v := by
  have hnorm : ∀ u : List Char, normalizeVal k u = .str u := by
    intro u
    unfold normalizeVal
    rw [if_neg hki]
  cases v with
  | bool b =>
    cases b
    · rw [show renderValue (.bool false) = ("0").data from rfl]
      rw [show stripDelims (("0").data) = ("0").data from rfl]
      rw [hnorm]
      rfl
    · rw [show renderValue (.bool true) = ("1").data from rfl]
      rw [show stripDelims (("1").data) = ("1").data from rfl]
      rw [hnorm]
      rfl
  | str u =>
    have hgood : ∀ c ∈ u, c ≠ quoteChar ∧ c ≠ braceOpen := by
      intro c hc
      unfold wfValB at hv
      have h2 := List.all_eq_true.1 hv c hc
      simp only [Bool.not_eq_true'] at h2
      obtain ⟨_, _, _, q4, q5, _⟩ := badValChar_props c h2
      exact ⟨q4, q5⟩
    by_cases hws : u.any isWS
    · have hrv : renderValue (.str u) = quoteChar :: u ++ [quoteChar] := by
        show (if u.any isWS then quoteChar :: u ++ [quoteChar] else u) = _
        rw [if_pos hws]
      rw [hrv]
      have hstr : stripDelims (quoteChar :: u ++ [quoteChar]) = u := by
        show (if quoteChar = quoteChar then
            (if (u ++ [quoteChar]).getLast? = some quoteChar
             then (u ++ [quoteChar]).dropLast else quoteChar :: (u ++ [quoteChar]))
          else if quoteChar = braceOpen then
            (if (u ++ [quoteChar]).getLast? = some braceClose
             then (u ++ [quoteChar]).dropLast else quoteChar :: (u ++ [quoteChar]))
          else quoteChar :: (u ++ [quoteChar])) = u
        rw [if_pos rfl, if_pos (List.getLast?_concat u)]
        simp
      rw [hstr, hnorm]
      rfl
    · have hrv : renderValue (.str u) = u := by
        show (if u.any isWS then quoteChar :: u ++ [quoteChar] else u) = _
        rw [if_neg hws]
      rw [hrv]
      have hstr : stripDelims u = u := by
        cases u with
        | nil => rfl
        | cons c cs =>
          show (if c = quoteChar then
              (if cs.getLast? = some quoteChar then cs.dropLast else c :: cs)
            else if c = braceOpen then
              (if cs.getLast? = some braceClose then cs.dropLast else c :: cs)
            else c :: cs) = c :: cs
          rw [if_neg (hgood c (by simp)).1, if_neg (hgood c (by simp)).2]
      rw [hstr, hnorm]
      rfl

theorem parsePairs_renderPairs (m : Meta)
    (h : ∀ kv ∈ m, kv.1 ≠ inclKey ∧ (∀ c ∈ kv.1, badKeyChar c = false) ∧
      wfValB kv.2 = true) :
    parsePairs (renderPairs m) = m.map (fun kv => (kv.1, reVal kv.2)) := by
  unfold parsePairs
  rw [metaTokens_renderPairs m (fun kv hm => ⟨(h kv hm).2.1, (h kv hm).2.2⟩)]
  rw [groupPairsJoin_tokens m (fun kv hm c hc => (badKeyChar_props c
    ((h kv hm).2.1 c hc)).2.1)]
  rw [List.map_map]
  refine List.map_congr_left (fun kv hkv => ?_)
  obtain ⟨h1, h2, h3⟩ := h kv hkv
  show (kv.1, normalizeVal kv.1 (stripDelims (renderValue kv.2))) = _
  rw [pairVal_roundtrip kv.1 kv.2 h3 h1]

/-! ## Supporting lemmas: merge with empty global snapshot -/

theorem updateMeta_cons_ne (k : List Char) (v : MetaVal) (acc : Meta)
    (k2 : List Char) (v2 : MetaVal) (hne : k2 ≠ k) :
    updateMeta ((k, v) :: acc) k2 v2 = (k, v) :: updateMeta acc k2 v2 := by
  unfold updateMeta
  have hhead : (decide ((k, v).1 = k2)) = false := by
    simp only [decide_eq_false_iff_not]
    exact fun he => hne he.symm
  simp only [List.any_cons, hhead, Bool.false_or]
  split
  · simp only [List.map_cons]
    rw [if_neg (show ¬(k, v).1 = k2 from fun he => hne he.symm)]
  · simp

theorem mergeMeta_cons_notin (k : List Char) (v : MetaVal) (acc l : Meta)
    (h : ∀ kv ∈ l, kv.1 ≠ k) :
    mergeMeta ((k, v) :: acc) l = (k, v) :: mergeMeta acc l := by
  induction l generalizing acc with
  | nil => rfl
  | cons kv t ih =>
    show mergeMeta (updateMeta ((k, v) :: acc) kv.1 kv.2) t = _
    rw [updateMeta_cons_ne k v acc kv.1 kv.2 (h kv (by simp))]
    exact ih _ (fun kv2 hm => h kv2 (by simp [hm]))

theorem mergeMeta_nil_left (l : Meta) (hnd : (l.map Prod.fst).Nodup) :
    mergeMeta [] l = l := by
  induction l with
  | nil => rfl
  | cons kv t ih =>
    simp only [List.map_cons, List.nodup_cons] at hnd
    show mergeMeta (updateMeta [] kv.1 kv.2) t = _
    have h0 : updateMeta [] kv.1 kv.2 = [(kv.1, kv.2)] := rfl
    rw [h0, mergeMeta_cons_notin kv.1 kv.2 [] t
      (fun kv2 hm he => hnd.1 (he ▸ List.mem_map_of_mem Prod.fst hm)),
      ih hnd.2]

/-! ## Supporting lemmas: characters of rendered lines -/

theorem rtype_name_chars (rt : RegionType) :
    ∀ c ∈ rt.name, c ≠ ';' ∧ c ≠ '\n' ∧ c ≠ '#' ∧ c ≠ '(' ∧ c ≠ ')' ∧
      c ≠ ',' ∧ isWS c = false ∧ c ≠ '-' ∧ c ≠ '+' := by
  cases rt <;> decide

theorem rtype_name_head (rt : RegionType) :
    ∃ c cs, rt.name = c :: cs ∧ lowerChar c ≠ 'g' ∧ c ≠ '-' ∧ c ≠ '+' ∧
      c ≠ '#' ∧ isWS c = false := by
  cases rt
  · exact ⟨'c', _, rfl, by decide, by decide, by decide, by decide, rfl⟩
  · exact ⟨'e', _, rfl, by decide, by decide, by decide, by decide, rfl⟩
  · exact ⟨'b', _, rfl, by decide, by decide, by decide, by decide, rfl⟩
  · exact ⟨'p', _, rfl, by decide, by decide, by decide, by decide, rfl⟩
  · exact ⟨'l', _, rfl, by decide, by decide, by decide, by decide, rfl⟩
  · exact ⟨'p', _, rfl, by decide, by decide, by decide, by decide, rfl⟩
  · exact ⟨'a', _, rfl, by decide, by decide, by decide, by decide, rfl⟩
  · exact ⟨'t', _, rfl, by decide, by decide, by decide, by decide, rfl⟩

theorem regionTypeOf_name (rt : RegionType) :
    regionTypeOf (lowerChars rt.name) = some rt := by
  cases rt <;> rfl

theorem renderValue_mem (v : MetaVal) :
    ∀ c ∈ renderValue v, c = quoteChar ∨ c = '0' ∨ c = '1' ∨
      ∃ u, v = .str u ∧ c ∈ u := by
  intro c hc
  cases v with
  | bool b =>
    cases b
    · rw [show renderValue (.bool false) = ("0").data from rfl] at hc
      right; left
      simpa using hc
    · rw [show renderValue (.bool true) = ("1").data from rfl] at hc
      right; right; left
      simpa using hc
  | str u =>
    by_cases hws : u.any isWS
    · rw [show renderValue (.str u) = quoteChar :: u ++ [quoteChar] from by
        show (if u.any isWS then quoteChar :: u ++ [quoteChar] else u) = _
        rw [if_pos hws]] at hc
      rcases List.mem_cons.1 hc with h1 | h1
      · exact Or.inl h1
      · rcases List.mem_append.1 h1 with h2 | h2
        · exact Or.inr (Or.inr (Or.inr ⟨u, rfl, h2⟩))
        · simp only [List.mem_singleton] at h2
          exact Or.inl h2
    · rw [show renderValue (.str u) = u from by
        show (if u.any isWS then quoteChar :: u ++ [quoteChar] else u) = _
        rw [if_neg hws]] at hc
      exact Or.inr (Or.inr (Or.inr ⟨u, rfl, hc⟩))

theorem renderPairs_mem (m : Meta) :
    ∀ c ∈ renderPairs m, c = '=' ∨ c = ' ' ∨ c = quoteChar ∨ c = '0' ∨
      c = '1' ∨ (∃ kv ∈ m, c ∈ kv.1) ∨
      (∃ kv ∈ m, ∃ u, kv.2 = .str u ∧ c ∈ u) := by
  induction m with
  | nil => intro c hc; cases hc
  | cons kv m' ih =>
    intro c hc
    have hpair : ∀ c2 ∈ kv.1 ++ '=' :: renderValue kv.2,
        c2 = '=' ∨ c2 = quoteChar ∨ c2 = '0' ∨ c2 = '1' ∨ c2 ∈ kv.1 ∨
        ∃ u, kv.2 = .str u ∧ c2 ∈ u := by
      intro c2 hc2
      rcases List.mem_append.1 hc2 with h1 | h1
      · right; right; right; right; left
        exact h1
      · rcases List.mem_cons.1 h1 with h2 | h2
        · left
          exact h2
        · rcases renderValue_mem kv.2 c2 h2 with h3 | h3 | h3 | h3
          · right; left
            exact h3
          · right; right; left
            exact h3
          · right; right; right; left
            exact h3
          · right; right; right; right; right
            exact h3
    have hfin : ∀ c2, (c2 = '=' ∨ c2 = quoteChar ∨ c2 = '0' ∨ c2 = '1' ∨
        c2 ∈ kv.1 ∨ ∃ u, kv.2 = .str u ∧ c2 ∈ u) →
        (c2 = '=' ∨ c2 = ' ' ∨ c2 = quoteChar ∨ c2 = '0' ∨ c2 = '1' ∨
          (∃ kv2 ∈ kv :: m', c2 ∈ kv2.1) ∨
          (∃ kv2 ∈ kv :: m', ∃ u, kv2.2 = .str u ∧ c2 ∈ u)) := by
      intro c2 h
      rcases h with h | h | h | h | h | h
      · left
        exact h
      · right; right; left
        exact h
      · right; right; right; left
        exact h
      · right; right; right; right; left
        exact h
      · right; right; right; right; right; left
        exact ⟨kv, by simp, h⟩
      · right; right; right; right; right; right
        exact ⟨kv, by simp, h⟩
    cases m' with
    | nil =>
      exact hfin c (hpair c hc)
    | cons kv2 m'' =>
      have hc2 : c ∈ (kv.1 ++ '=' :: renderValue kv.2) ++
          ' ' :: renderPairs (kv2 :: m'') := hc
      rcases List.mem_append.1 hc2 with h1 | h1
      · exact hfin c (hpair c h1)
      · rcases List.mem_cons.1 h1 with h2 | h2
        · exact Or.inr (Or.inl h2)
        · rcases ih c h2 with
            hq | hq | hq | hq | hq | ⟨kv3, hm3, h3⟩ | ⟨kv3, hm3, h3⟩
          · left
            exact hq
          · right; left
            exact hq
          · right; right; left
            exact hq
          · right; right; right; left
            exact hq
          · right; right; right; right; left
            exact hq
          · right; right; right; right; right; left
            exact ⟨kv3, by simp [hm3], h3⟩
          · right; right; right; right; right; right
            exact ⟨kv3, by simp [hm3], h3⟩

theorem joinComma_mem (toks : List (List Char)) :
    ∀ c ∈ joinComma toks, c = ',' ∨ ∃ t ∈ toks, c ∈ t := by
  induction toks with
  | nil => intro c hc; cases hc
  | cons t ts ih =>
    intro c hc
    cases ts with
    | nil =>
      exact Or.inr ⟨t, by simp, hc⟩
    | cons t2 ts' =>
      rcases List.mem_append.1 hc with h1 | h1
      · exact Or.inr ⟨t, by simp, h1⟩
      · rcases List.mem_cons.1 h1 with h2 | h2
        · exact Or.inl h2
        · rcases ih c h2 with h | ⟨t3, hm3, h3⟩
          · exact Or.inl h
          · exact Or.inr ⟨t3, by simp [hm3], h3⟩

theorem coordChars_mem (fr : Frame) (p : Nat) (ru : Option RadUnit)
    (rt : RegionType) (i : Nat) (q : ℚ) :
    ∀ c ∈ coordChars fr p ru rt i q,
      (c = '-' ∨ c = '.' ∨ ∃ d, d < 10 ∧ c = digitChar d) ∨ c = quoteChar ∨
        c = arcminChar := by
  intro c hc
  unfold coordChars at hc
  split at hc
  · split at hc
    · rcases List.mem_append.1 hc with h1 | h1
      · exact Or.inl (fmtScaled_mem _ _ c h1)
      · simp only [List.mem_singleton] at h1
        exact Or.inr (Or.inl h1)
    · rcases List.mem_append.1 hc with h1 | h1
      · exact Or.inl (fmtScaled_mem _ _ c h1)
      · simp only [List.mem_singleton] at h1
        exact Or.inr (Or.inr h1)
    · exact Or.inl (fmtScaled_mem _ _ c hc)
  · exact Or.inl (fmtScaled_mem _ _ c hc)

/-! ## Supporting lemmas: line structure -/

theorem splitOnC_cons (sep c : Char) (cs : List Char) :
    splitOnC sep (c :: cs)
      = if c = sep then [] :: splitOnC sep cs
        else
          (match splitOnC sep cs with
           | [] => [[c]]
           | t :: ts => (c :: t) :: ts) := rfl

theorem splitOnC_no_sep (sep : Char) (t : List Char)
    (h : ∀ c ∈ t, c ≠ sep) : splitOnC sep t = [t] := by
  induction t with
  | nil => rfl
  | cons c cs ih =>
    rw [splitOnC_cons, if_neg (h c (by simp)),
      ih (fun c2 hc2 => h c2 (by simp [hc2]))]

theorem splitOnC_append_cons (sep : Char) (xs ys : List Char)
    (h : ∀ c ∈ xs, c ≠ sep) :
    splitOnC sep (xs ++ sep :: ys) = xs :: splitOnC sep ys := by
  induction xs with
  | nil =>
    show splitOnC sep (sep :: ys) = _
    rw [splitOnC_cons, if_pos rfl]
  | cons x xs ih =>
    show splitOnC sep (x :: (xs ++ sep :: ys)) = _
    rw [splitOnC_cons, if_neg (h x (by simp)),
      ih (fun c hc => h c (by simp [hc]))]

theorem joinComma_split (toks : List (List Char)) (hne : toks ≠ [])
    (h : ∀ t ∈ toks, ∀ c ∈ t, c ≠ ',') :
    splitOnC ',' (joinComma toks) = toks := by
  induction toks with
  | nil => exact absurd rfl hne
  | cons t ts ih =>
    cases ts with
    | nil =>
      show splitOnC ',' t = [t]
      exact splitOnC_no_sep ',' t (h t (by simp))
    | cons t2 ts' =>
      show splitOnC ',' (t ++ ',' :: joinComma (t2 :: ts')) = _
      rw [splitOnC_append_cons ',' t _ (h t (by simp)),
        ih (by simp) (fun t3 hm => h t3 (by simp [hm]))]

theorem coordChars_trim (fr : Frame) (p : Nat) (ru : Option RadUnit)
    (rt : RegionType) (i : Nat) (q : ℚ) :
    trim (coordChars fr p ru rt i q) = coordChars fr p ru rt i q := by
  refine trim_eq_self _ (fun c hc => ?_) (fun c hc => ?_)
  · rcases coordChars_mem fr p ru rt i q c (mem_of_head? _ c hc) with h | h | h
    · exact numChar_not_ws c h
    · subst h; rfl
    · subst h; rfl
  · rcases coordChars_mem fr p ru rt i q c (mem_of_getLast? _ c hc) with h | h | h
    · exact numChar_not_ws c h
    · subst h; rfl
    · subst h; rfl

theorem renderValue_getLast_not_ws (v : MetaVal) (hv : wfValB v = true) :
    ∀ c, (renderValue v).getLast? = some c → isWS c = false := by
  intro c hc
  cases v with
  | bool b =>
    cases b
    · rw [show renderValue (.bool false) = ("0").data from rfl] at hc
      injection hc with hc
      subst hc
      rfl
    · rw [show renderValue (.bool true) = ("1").data from rfl] at hc
      injection hc with hc
      subst hc
      rfl
  | str u =>
    by_cases hws : u.any isWS
    · rw [show renderValue (.str u) = quoteChar :: u ++ [quoteChar] from by
        show (if u.any isWS then quoteChar :: u ++ [quoteChar] else u) = _
        rw [if_pos hws]] at hc
      rw [show quoteChar :: u ++ [quoteChar] = (quoteChar :: u) ++ [quoteChar]
          from by simp, List.getLast?_concat] at hc
      injection hc with hc
      subst hc
      rfl
    · rw [show renderValue (.str u) = u from by
        show (if u.any isWS then quoteChar :: u ++ [quoteChar] else u) = _
        rw [if_neg hws]] at hc
      have hcm := mem_of_getLast? u c hc
      have hna : ¬(u.any isWS = true) := hws
      rw [List.any_eq_true] at hna
      by_cases hcw : isWS c = true
      · exact absurd ⟨c, hcm, hcw⟩ hna
      · simpa using hcw

theorem renderPairs_getLast_not_ws (m : Meta)
    (hwf : ∀ kv ∈ m, wfValB kv.2 = true) (hne : m ≠ []) :
    ∀ c, (renderPairs m).getLast? = some c → isWS c = false := by
  induction m with
  | nil => exact absurd rfl hne
  | cons kv m' ih =>
    intro c hc
    have hpair : ∀ c2, (kv.1 ++ '=' :: renderValue kv.2).getLast? = some c2 →
        isWS c2 = false := by
      intro c2 hc2
      rw [List.getLast?_append_of_ne_nil _ (by simp :
        ('=' :: renderValue kv.2) ≠ [])] at hc2
      rcases hrv : renderValue kv.2 with _ | ⟨x, xs⟩
      · rw [hrv] at hc2
        injection hc2 with hc2
        subst hc2
        rfl
      · rw [hrv] at hc2
        rw [show ('=' :: x :: xs) = ['='] ++ (x :: xs) from rfl,
          List.getLast?_append_of_ne_nil _ (by simp : (x :: xs) ≠ [])] at hc2
        refine renderValue_getLast_not_ws kv.2 (hwf kv (by simp)) c2 ?_
        rw [hrv]
        exact hc2
    cases m' with
    | nil => exact hpair c hc
    | cons kv2 m'' =>
      have hc2 : ((kv.1 ++ '=' :: renderValue kv.2) ++
          ' ' :: renderPairs (kv2 :: m'')).getLast? = some c := hc
      have hrpne : renderPairs (kv2 :: m'') ≠ [] := by
        cases m''
        · show kv2.1 ++ '=' :: renderValue kv2.2 ≠ []
          simp
        · show (kv2.1 ++ '=' :: renderValue kv2.2) ++ _ ≠ []
          simp
      rw [List.getLast?_append_of_ne_nil _ (by simp :
          (' ' :: renderPairs (kv2 :: m'')) ≠ []),
        show (' ' :: renderPairs (kv2 :: m''))
          = [' '] ++ renderPairs (kv2 :: m'') from rfl,
        List.getLast?_append_of_ne_nil _ hrpne] at hc2
      exact ih (fun kv3 hm => hwf kv3 (by simp [hm])) (by simp) c hc2

theorem renderPairs_ne_nil (kv : List Char × MetaVal) (m : Meta) :
    renderPairs (kv :: m) ≠ [] := by
  cases m
  · show kv.1 ++ '=' :: renderValue kv.2 ≠ []
    simp
  · show (kv.1 ++ '=' :: renderValue kv.2) ++ _ ≠ []
    simp

theorem trimL_cons (c : Char) (cs : List Char) :
    trimL (c :: cs) = if isWS c then trimL cs else c :: cs := rfl

theorem trimR_concat_ws (xs : List Char) (c : Char) (h : isWS c = true) :
    trimR (xs ++ [c]) = trimR xs := by
  unfold trimR
  rw [show (xs ++ [c]).reverse = c :: xs.reverse by simp]
  rw [trimL_cons, if_pos h]

theorem stripSign_minus (cs : List Char) :
    stripSign ('-' :: cs) = (some false, cs) := rfl

theorem stripSign_cons (c : Char) (cs : List Char) :
    stripSign (c :: cs)
      = if c = '-' then (some false, cs)
        else if c = '+' then (some true, cs) else (none, c :: cs) := rfl

theorem stripSign_other (c : Char) (cs : List Char) (h1 : c ≠ '-')
    (h2 : c ≠ '+') : stripSign (c :: cs) = (none, c :: cs) := by
  rw [stripSign_cons, if_neg h1, if_neg h2]

theorem mapIdxFrom_mem (f : Nat → ℚ → List Char) (i : Nat) (qs : List ℚ) :
    ∀ t ∈ mapIdxFrom f i qs, ∃ j q, t = f j q := by
  induction qs generalizing i with
  | nil => intro t ht; cases ht
  | cons q qs ih =>
    intro t ht
    rcases List.mem_cons.1 ht with h1 | h1
    · exact ⟨i, q, h1⟩
    · exact ih (i + 1) t h1

theorem arityOk_ne_zero (rt : RegionType) (n : Nat) (h : arityOk rt n = true) :
    n ≠ 0 := by
  cases rt <;> unfold arityOk at h <;>
    simp only [Bool.and_eq_true, decide_eq_true_eq] at h <;> omega

theorem wfRegionB_props (fr : Frame) (r : Region) (h : wfRegionB fr r = true) :
    r.frame = fr ∧ arityOk r.rtype r.coords.length = true ∧
    (r.meta.map Prod.fst).Nodup ∧
    (∀ kv ∈ r.meta, kv.1 ≠ [] ∧ (∀ c ∈ kv.1, badKeyChar c = false) ∧
      wfValB kv.2 = true) ∧
    (∀ v, metaLookup textKey r.meta = some v →
      metaLookup labelKey r.meta = some v) := by
  unfold wfRegionB wfMetaB at h
  simp only [Bool.and_eq_true, decide_eq_true_eq] at h
  obtain ⟨⟨h1, h2⟩, ⟨h3, h4⟩, h5⟩ := h
  refine ⟨h1, h2, h3, ?_, ?_⟩
  · intro kv hm
    have h6 := List.all_eq_true.1 h4 kv hm
    simp only [Bool.and_eq_true, Bool.not_eq_true'] at h6
    obtain ⟨⟨h7, h8⟩, h9⟩ := h6
    refine ⟨?_, ?_, h9⟩
    · intro he
      rw [he] at h7
      simp at h7
    · intro c hc
      have := List.all_eq_true.1 h8 c hc
      simpa using this
  · intro v hv
    unfold textLabelOkB at h5
    rw [hv] at h5
    exact of_decide_eq_true h5

theorem bodyCore_mem (fr : Frame) (p : Nat) (ru : Option RadUnit)
    (rt : RegionType) (qs : List ℚ) :
    ∀ c ∈ rt.name ++ '(' ::
        (joinComma (mapIdxFrom (coordChars fr p ru rt) 0 qs) ++ [')']),
      c ≠ '#' ∧ c ≠ ';' ∧ c ≠ '\n' := by
  intro c hc
  rcases List.mem_append.1 hc with h1 | h1
  · obtain ⟨q1, q2, q3, _⟩ := rtype_name_chars rt c h1
    exact ⟨q3, q1, q2⟩
  · rcases List.mem_cons.1 h1 with h2 | h2
    · subst h2
      exact ⟨by decide, by decide, by decide⟩
    · rcases List.mem_append.1 h2 with h3 | h3
      · rcases joinComma_mem _ c h3 with h4 | ⟨t, ht, h4⟩
        · subst h4
          exact ⟨by decide, by decide, by decide⟩
        · obtain ⟨j, q, hq⟩ := mapIdxFrom_mem _ 0 qs t ht
          subst hq
          rcases coordChars_mem fr p ru rt j q c h4 with h5 | h5 | h5
          · exact ⟨numChar_ne c h5 '#' (by decide) (by decide) (by decide),
              numChar_ne c h5 ';' (by decide) (by decide) (by decide),
              numChar_ne c h5 '\n' (by decide) (by decide) (by decide)⟩
          · subst h5
            exact ⟨by decide, by decide, by decide⟩
          · subst h5
            exact ⟨by decide, by decide, by decide⟩
      · simp only [List.mem_singleton] at h3
        subst h3
        exact ⟨by decide, by decide, by decide⟩

theorem regionLineChars_struct (fr : Frame) (p : Nat) (ru : Option RadUnit)
    (r : Region) :
    regionLineChars fr p ru r
      = (if r.incl then [] else ['-']) ++ (r.rtype.name ++ '(' ::
          (joinComma (mapIdxFrom (coordChars fr p ru r.rtype) 0 r.coords) ++ ')' ::
           (if (droppedKeys r.meta).isEmpty then []
            else ' ' :: '#' :: ' ' :: renderPairs (droppedKeys r.meta)))) := by
  unfold regionLineChars
  simp [List.append_assoc]

theorem mapIdxFrom_ne_nil (f : Nat → ℚ → List Char) (i : Nat) (qs : List ℚ)
    (h : qs ≠ []) : mapIdxFrom f i qs ≠ [] := by
  cases qs with
  | nil => exact absurd rfl h
  | cons q qs2 =>
    show f i q :: mapIdxFrom f (i + 1) qs2 ≠ []
    simp

theorem joinComma_coord_ne (fr : Frame) (p : Nat) (ru : Option RadUnit)
    (rt : RegionType) (qs : List ℚ) (x : Char) (hx1 : x ≠ '-')
    (hx2 : x ≠ '.') (hx3 : isDig x = false) (hx4 : x ≠ quoteChar)
    (hx5 : x ≠ arcminChar) (hx6 : x ≠ ',') :
    ∀ c ∈ joinComma (mapIdxFrom (coordChars fr p ru rt) 0 qs), c ≠ x := by
  intro c hc
  rcases joinComma_mem _ c hc with h | ⟨t, ht, h⟩
  · subst h
    exact fun he => hx6 he.symm
  · obtain ⟨j, q, hq⟩ := mapIdxFrom_mem _ 0 qs t ht
    subst hq
    rcases coordChars_mem fr p ru rt j q c h with h5 | h5 | h5
    · exact numChar_ne c h5 x hx1 hx2 hx3
    · subst h5
      exact fun he => hx4 he.symm
    · subst h5
      exact fun he => hx5 he.symm

theorem name_append_head (rt : RegionType) (t : List Char) :
    ∀ c, (rt.name ++ t).head? = some c → isWS c = false := by
  intro c hc
  obtain ⟨c0, cs0, hname, _, _, _, _, hw0⟩ := rtype_name_head rt
  rw [hname] at hc
  simp only [List.cons_append, List.head?_cons, Option.some.injEq] at hc
  rw [← hc]
  exact hw0

theorem bodyCore_getLast (fr : Frame) (p : Nat) (ru : Option RadUnit)
    (rt : RegionType) (qs : List ℚ) :
    (rt.name ++ '(' ::
      (joinComma (mapIdxFrom (coordChars fr p ru rt) 0 qs) ++ [')'])).getLast?
      = some ')' := by
  rw [show rt.name ++ '(' ::
      (joinComma (mapIdxFrom (coordChars fr p ru rt) 0 qs) ++ [')'])
      = (rt.name ++ '(' :: joinComma (mapIdxFrom (coordChars fr p ru rt) 0 qs))
        ++ [')'] from by simp]
  exact List.getLast?_concat _

theorem bodyCore_trim (fr : Frame) (p : Nat) (ru : Option RadUnit)
    (rt : RegionType) (qs : List ℚ) :
    trim (rt.name ++ '(' ::
        (joinComma (mapIdxFrom (coordChars fr p ru rt) 0 qs) ++ [')']))
      = rt.name ++ '(' ::
          (joinComma (mapIdxFrom (coordChars fr p ru rt) 0 qs) ++ [')']) := by
  refine trim_eq_self _ (name_append_head rt _) (fun c hc => ?_)
  rw [bodyCore_getLast fr p ru rt qs] at hc
  injection hc with hc
  rw [← hc]
  decide

theorem splitNameArgs_body (fr : Frame) (p : Nat) (ru : Option RadUnit)
    (rt : RegionType) (qs : List ℚ) (hqs : qs ≠ []) :
    splitNameArgs (rt.name ++ '(' ::
        (joinComma (mapIdxFrom (coordChars fr p ru rt) 0 qs) ++ [')']))
      = some (rt.name, mapIdxFrom (coordChars fr p ru rt) 0 qs) := by
  have htn : trim rt.name = rt.name :=
    trim_eq_self _
      (fun c hc => (rtype_name_chars rt c (mem_of_head? _ c hc)).2.2.2.2.2.2.1)
      (fun c hc => (rtype_name_chars rt c (mem_of_getLast? _ c hc)).2.2.2.2.2.2.1)
  have htc : ∀ t ∈ mapIdxFrom (coordChars fr p ru rt) 0 qs, ∀ c ∈ t, c ≠ ',' := by
    intro t ht c hc
    obtain ⟨j, q, hq⟩ := mapIdxFrom_mem _ 0 qs t ht
    subst hq
    rcases coordChars_mem fr p ru rt j q c hc with h5 | h5 | h5
    · exact numChar_ne c h5 ',' (by decide) (by decide) (by decide)
    · subst h5
      decide
    · subst h5
      decide
  have hmt : (mapIdxFrom (coordChars fr p ru rt) 0 qs).map trim
      = mapIdxFrom (coordChars fr p ru rt) 0 qs := by
    have h2 : ∀ t ∈ mapIdxFrom (coordChars fr p ru rt) 0 qs, trim t = id t := by
      intro t ht
      obtain ⟨j, q, hq⟩ := mapIdxFrom_mem _ 0 qs t ht
      subst hq
      exact coordChars_trim fr p ru rt j q
    rw [List.map_congr_left h2, List.map_id]
  unfold splitNameArgs
  rw [splitFirst_append '(' rt.name _
    (fun c hc => (rtype_name_chars rt c hc).2.2.2.1)]
  show (match splitFirst ')'
      (joinComma (mapIdxFrom (coordChars fr p ru rt) 0 qs) ++ [')']) with
    | some (inner, tail) =>
      if (trim tail).isEmpty then
        some (trim rt.name, (splitOnC ',' inner).map trim)
      else none
    | none => none) = _
  rw [splitFirst_append ')' (joinComma (mapIdxFrom (coordChars fr p ru rt) 0 qs))
    [] (joinComma_coord_ne fr p ru rt qs ')' (by decide) (by decide) (by decide)
      (by decide) (by decide) (by decide))]
  show (if (trim ([] : List Char)).isEmpty then
      some (trim rt.name, (splitOnC ','
        (joinComma (mapIdxFrom (coordChars fr p ru rt) 0 qs))).map trim)
    else none) = _
  rw [if_pos (show (trim ([] : List Char)).isEmpty = true from rfl)]
  rw [htn, joinComma_split _ (mapIdxFrom_ne_nil _ 0 qs hqs) htc, hmt]

theorem splitMetaPart_none (rest : List Char) (h : ∀ c ∈ rest, c ≠ '#') :
    splitMetaPart rest = (rest, []) := by
  unfold splitMetaPart
  rw [splitFirst_none '#' rest h]

theorem splitMetaPart_append (xs ys : List Char) (h : ∀ c ∈ xs, c ≠ '#') :
    splitMetaPart (xs ++ '#' :: ys) = (xs, ys) := by
  unfold splitMetaPart
  rw [splitFirst_append '#' xs ys h]

theorem parseShapeRest_eq (frOpt : Option Frame) (gm : Meta)
    (sign : Option Bool) (rest body metaPart : List Char)
    (h : splitMetaPart rest = (body, metaPart)) :
    parseShapeRest frOpt gm sign rest
      = parseShapeSplit frOpt gm sign body metaPart := by
  unfold parseShapeRest
  rw [h]

theorem parseShapeSplit_some (frOpt : Option Frame) (gm : Meta)
    (sign : Option Bool) (body metaPart nm : List Char)
    (args : List (List Char)) (h : splitNameArgs (trim body) = some (nm, args)) :
    parseShapeSplit frOpt gm sign body metaPart
      = parseShapeArgs frOpt gm sign nm args metaPart := by
  unfold parseShapeSplit
  rw [h]

theorem parseShapeArgs_some (fr : Frame) (gm : Meta) (sign : Option Bool)
    (nm : List Char) (args : List (List Char)) (metaPart : List Char)
    (rt : RegionType) (h : regionTypeOf (lowerChars nm) = some rt) :
    parseShapeArgs (some fr) gm sign nm args metaPart
      = parseShapeTyped fr gm sign (lowerChars nm) rt args metaPart := by
  unfold parseShapeArgs
  rw [h]

theorem parseShapeTyped_ok (fr : Frame) (gm : Meta) (sign : Option Bool)
    (nmL : List Char) (rt : RegionType) (args : List (List Char))
    (metaPart : List Char) (coords : List Quantity)
    (ha : arityOk rt args.length = true)
    (hc : parseCoords fr 0 args = some coords) :
    parseShapeTyped fr gm sign nmL rt args metaPart
      = .ok (mkShape rt fr coords sign gm (parsePairs metaPart)) := by
  unfold parseShapeTyped
  rw [if_pos ha, hc]

theorem parseShapeCore_eq (frOpt : Option Frame) (gm : Meta) (cs : List Char)
    (sign : Option Bool) (rest : List Char)
    (h : stripSign (trim cs) = (sign, rest)) :
    parseShapeCore frOpt gm cs = parseShapeRest frOpt gm sign rest := by
  unfold parseShapeCore
  rw [h]

theorem stripSign_name_append (rt : RegionType) (t : List Char) :
    stripSign (rt.name ++ t) = (none, rt.name ++ t) := by
  obtain ⟨c0, cs0, hname, _, hm0, hp0, _, _⟩ := rtype_name_head rt
  rw [hname]
  show stripSign (c0 :: (cs0 ++ t)) = (none, c0 :: (cs0 ++ t))
  exact stripSign_other c0 _ hm0 hp0

theorem parsePairs_space (cs : List Char) :
    parsePairs (' ' :: cs) = parsePairs cs := by
  unfold parsePairs metaTokens
  rw [metaTokensAux_plain_cons, if_pos (show isWS ' ' = true from rfl),
    if_pos (show (([] : List Char)).isEmpty = true from rfl)]

theorem lineCore_last (fr : Frame) (p : Nat) (ru : Option RadUnit)
    (rt : RegionType) (qs : List ℚ) (pm : Meta)
    (hwfv : ∀ kv ∈ pm, wfValB kv.2 = true) :
    ∀ c, (rt.name ++ '(' ::
        (joinComma (mapIdxFrom (coordChars fr p ru rt) 0 qs) ++
         ')' :: (if pm.isEmpty then []
                 else ' ' :: '#' :: ' ' :: renderPairs pm))).getLast? = some c →
      isWS c = false := by
  intro c hc
  by_cases hpmE : pm.isEmpty = true
  · rw [if_pos hpmE] at hc
    rw [bodyCore_getLast fr p ru rt qs] at hc
    injection hc with hc
    rw [← hc]
    decide
  · rw [if_neg hpmE] at hc
    have hpmne : pm ≠ [] := by
      intro he
      rw [he] at hpmE
      exact hpmE rfl
    have hrpne : renderPairs pm ≠ [] := by
      cases pm with
      | nil => exact absurd rfl hpmne
      | cons kv m => exact renderPairs_ne_nil kv m
    rw [show rt.name ++ '(' ::
        (joinComma (mapIdxFrom (coordChars fr p ru rt) 0 qs) ++
         ')' :: ' ' :: '#' :: ' ' :: renderPairs pm)
        = (rt.name ++ '(' ::
            (joinComma (mapIdxFrom (coordChars fr p ru rt) 0 qs) ++
             [')', ' ', '#', ' '])) ++ renderPairs pm from by simp] at hc
    rw [List.getLast?_append_of_ne_nil _ hrpne] at hc
    exact renderPairs_getLast_not_ws pm hwfv hpmne c hc

theorem lineCore_trim (fr : Frame) (p : Nat) (ru : Option RadUnit)
    (rt : RegionType) (qs : List ℚ) (pm : Meta)
    (hwfv : ∀ kv ∈ pm, wfValB kv.2 = true) :
    trim (rt.name ++ '(' ::
        (joinComma (mapIdxFrom (coordChars fr p ru rt) 0 qs) ++
         ')' :: (if pm.isEmpty then []
                 else ' ' :: '#' :: ' ' :: renderPairs pm)))
      = rt.name ++ '(' ::
          (joinComma (mapIdxFrom (coordChars fr p ru rt) 0 qs) ++
           ')' :: (if pm.isEmpty then []
                   else ' ' :: '#' :: ' ' :: renderPairs pm)) :=
  trim_eq_self _ (name_append_head rt _) (lineCore_last fr p ru rt qs pm hwfv)

theorem parseShapeRest_body (fr : Frame) (p : Nat) (ru : Option RadUnit)
    (r : Region) (hwf : wfRegionB fr r = true) (sign : Option Bool) :
    parseShapeRest (some fr) [] sign
        (r.rtype.name ++ '(' ::
          (joinComma (mapIdxFrom (coordChars fr p ru r.rtype) 0 r.coords) ++
           ')' :: (if (droppedKeys r.meta).isEmpty then []
                   else ' ' :: '#' :: ' ' :: renderPairs (droppedKeys r.meta))))
      = .ok (mkShape r.rtype fr
          (mapIdxQ (reQuantity fr p ru r.rtype) 0 r.coords) sign []
          (reparsedMeta r.meta)) := by
  obtain ⟨_, harity, _, hpairs, _⟩ := wfRegionB_props fr r hwf
  have hqs : r.coords ≠ [] := by
    intro he
    have h0 := arityOk_ne_zero r.rtype r.coords.length harity
    rw [he] at h0
    exact h0 rfl
  have harity2 : arityOk r.rtype
      (mapIdxFrom (coordChars fr p ru r.rtype) 0 r.coords).length = true := by
    rw [mapIdxFrom_length]
    exact harity
  have hpm : ∀ kv ∈ droppedKeys r.meta, kv.1 ≠ inclKey ∧
      (∀ c ∈ kv.1, badKeyChar c = false) ∧ wfValB kv.2 = true := by
    intro kv hm
    have h1 := List.mem_filter.1 hm
    refine ⟨by simpa using h1.2, (hpairs kv h1.1).2.1, (hpairs kv h1.1).2.2⟩
  by_cases hpmE : (droppedKeys r.meta).isEmpty = true
  · rw [if_pos hpmE]
    have hpmnil : droppedKeys r.meta = [] := by simpa using hpmE
    rw [parseShapeRest_eq (some fr) [] sign _ _ []
      (splitMetaPart_none _
        (fun c hc => (bodyCore_mem fr p ru r.rtype r.coords c hc).1))]
    rw [parseShapeSplit_some (some fr) [] sign _ [] r.rtype.name _
      (by rw [bodyCore_trim fr p ru r.rtype r.coords]
          exact splitNameArgs_body fr p ru r.rtype r.coords hqs)]
    rw [parseShapeArgs_some fr [] sign r.rtype.name _ []
      r.rtype (regionTypeOf_name r.rtype)]
    rw [parseShapeTyped_ok fr [] sign (lowerChars r.rtype.name) r.rtype _ []
      (mapIdxQ (reQuantity fr p ru r.rtype) 0 r.coords) harity2
      (parseCoords_rendered fr p ru r.rtype 0 r.coords)]
    rw [show parsePairs ([] : List Char) = [] from rfl]
    rw [show reparsedMeta r.meta = ([] : Meta) from by
      unfold reparsedMeta
      rw [hpmnil]
      rfl]
  · rw [if_neg hpmE]
    have hxs : ∀ c ∈ r.rtype.name ++ '(' ::
        (joinComma (mapIdxFrom (coordChars fr p ru r.rtype) 0 r.coords) ++
         [')', ' ']), c ≠ '#' := by
      intro c hc
      rcases List.mem_append.1 hc with h1 | h1
      · exact (rtype_name_chars r.rtype c h1).2.2.1
      · rcases List.mem_cons.1 h1 with h2 | h2
        · subst h2
          decide
        · rcases List.mem_append.1 h2 with h3 | h3
          · exact joinComma_coord_ne fr p ru r.rtype r.coords '#' (by decide)
              (by decide) (by decide) (by decide) (by decide) (by decide) c h3
          · rcases List.mem_cons.1 h3 with h4 | h4
            · subst h4
              decide
            · simp only [List.mem_singleton] at h4
              subst h4
              decide
    rw [show r.rtype.name ++ '(' ::
        (joinComma (mapIdxFrom (coordChars fr p ru r.rtype) 0 r.coords) ++
         ')' :: ' ' :: '#' :: ' ' :: renderPairs (droppedKeys r.meta))
        = (r.rtype.name ++ '(' ::
            (joinComma (mapIdxFrom (coordChars fr p ru r.rtype) 0 r.coords) ++
             [')', ' '])) ++
          '#' :: (' ' :: renderPairs (droppedKeys r.meta)) from by simp]
    rw [parseShapeRest_eq (some fr) [] sign _ _
      (' ' :: renderPairs (droppedKeys r.meta))
      (splitMetaPart_append _ _ hxs)]
    have htrb : trim (r.rtype.name ++ '(' ::
        (joinComma (mapIdxFrom (coordChars fr p ru r.rtype) 0 r.coords) ++
         [')', ' ']))
        = r.rtype.name ++ '(' ::
            (joinComma (mapIdxFrom (coordChars fr p ru r.rtype) 0 r.coords) ++
             [')']) := by
      unfold trim
      rw [trimL_eq_self _ (name_append_head r.rtype _)]
      rw [show r.rtype.name ++ '(' ::
          (joinComma (mapIdxFrom (coordChars fr p ru r.rtype) 0 r.coords) ++
           [')', ' '])
          = (r.rtype.name ++ '(' ::
              (joinComma (mapIdxFrom (coordChars fr p ru r.rtype) 0 r.coords) ++
               [')'])) ++ [' '] from by simp]
      rw [trimR_concat_ws _ ' ' rfl]
      refine trimR_eq_self _ (fun c hc => ?_)
      rw [bodyCore_getLast fr p ru r.rtype r.coords] at hc
      injection hc with hc
      rw [← hc]
      decide
    rw [parseShapeSplit_some (some fr) [] sign _
      (' ' :: renderPairs (droppedKeys r.meta)) r.rtype.name _
      (by rw [htrb]
          exact splitNameArgs_body fr p ru r.rtype r.coords hqs)]
    rw [parseShapeArgs_some fr [] sign r.rtype.name _
      (' ' :: renderPairs (droppedKeys r.meta)) r.rtype
      (regionTypeOf_name r.rtype)]
    rw [parseShapeTyped_ok fr [] sign (lowerChars r.rtype.name) r.rtype _
      (' ' :: renderPairs (droppedKeys r.meta))
      (mapIdxQ (reQuantity fr p ru r.rtype) 0 r.coords) harity2
      (parseCoords_rendered fr p ru r.rtype 0 r.coords)]
    rw [parsePairs_space, parsePairs_renderPairs (droppedKeys r.meta) hpm]
    rw [show reparsedMeta r.meta
        = (droppedKeys r.meta).map (fun kv => (kv.1, reVal kv.2)) from rfl]

theorem parseShapeCore_regionLine (fr : Frame) (p : Nat) (ru : Option RadUnit)
    (r : Region) (hwf : wfRegionB fr r = true) :
    parseShapeCore (some fr) [] (regionLineChars fr p ru r)
      = .ok (shapeOfRegion fr p ru r) := by
  have hwfv : ∀ kv ∈ droppedKeys r.meta, wfValB kv.2 = true := by
    intro kv hm
    exact ((wfRegionB_props fr r hwf).2.2.2.1 kv (List.mem_filter.1 hm).1).2.2
  rw [regionLineChars_struct]
  by_cases hincl : r.incl = true
  · rw [if_pos hincl, List.nil_append]
    rw [parseShapeCore_eq (some fr) [] _ none _
      (by rw [lineCore_trim fr p ru r.rtype r.coords (droppedKeys r.meta) hwfv]
          exact stripSign_name_append r.rtype _)]
    rw [parseShapeRest_body fr p ru r hwf none]
    unfold shapeOfRegion
    rw [if_pos hincl]
  · rw [if_neg hincl, List.singleton_append]
    have hcne : r.rtype.name ++ '(' ::
        (joinComma (mapIdxFrom (coordChars fr p ru r.rtype) 0 r.coords) ++
         ')' :: (if (droppedKeys r.meta).isEmpty then []
                 else ' ' :: '#' :: ' ' :: renderPairs (droppedKeys r.meta)))
        ≠ [] := by
      obtain ⟨c0, cs0, hname, _, _, _, _, _⟩ := rtype_name_head r.rtype
      rw [hname]
      simp
    rw [parseShapeCore_eq (some fr) [] _ (some false) _
      (by rw [show trim ('-' :: (r.rtype.name ++ '(' ::
            (joinComma (mapIdxFrom (coordChars fr p ru r.rtype) 0 r.coords) ++
             ')' :: (if (droppedKeys r.meta).isEmpty then []
                     else ' ' :: '#' :: ' ' ::
                       renderPairs (droppedKeys r.meta)))))
            = '-' :: (r.rtype.name ++ '(' ::
              (joinComma (mapIdxFrom (coordChars fr p ru r.rtype) 0 r.coords) ++
               ')' :: (if (droppedKeys r.meta).isEmpty then []
                       else ' ' :: '#' :: ' ' ::
                         renderPairs (droppedKeys r.meta)))) from by
            refine trim_eq_self _ (fun c hc => ?_) (fun c hc => ?_)
            · simp only [List.head?_cons, Option.some.injEq] at hc
              rw [← hc]
              decide
            · rw [show ('-' :: (r.rtype.name ++ '(' ::
                  (joinComma (mapIdxFrom (coordChars fr p ru r.rtype) 0
                    r.coords) ++
                   ')' :: (if (droppedKeys r.meta).isEmpty then []
                           else ' ' :: '#' :: ' ' ::
                             renderPairs (droppedKeys r.meta)))))
                  = ['-'] ++ (r.rtype.name ++ '(' ::
                    (joinComma (mapIdxFrom (coordChars fr p ru r.rtype) 0
                      r.coords) ++
                     ')' :: (if (droppedKeys r.meta).isEmpty then []
                             else ' ' :: '#' :: ' ' ::
                               renderPairs (droppedKeys r.meta)))) from rfl,
                List.getLast?_append_of_ne_nil _ hcne] at hc
              exact lineCore_last fr p ru r.rtype r.coords (droppedKeys r.meta)
                hwfv c hc]
          exact stripSign_minus _)]
    rw [parseShapeRest_body fr p ru r hwf (some false)]
    unfold shapeOfRegion
    rw [if_neg hincl]

theorem regionLineChars_ne (fr : Frame) (p : Nat) (ru : Option RadUnit)
    (r : Region) (hwf : wfRegionB fr r = true) (x : Char)
    (hx1 : x ≠ '-') (hx2 : x ≠ '.') (hx3 : isDig x = false)
    (hx4 : x ≠ quoteChar) (hx5 : x ≠ arcminChar) (hx6 : x ≠ ',')
    (hx7 : x ≠ '(') (hx8 : x ≠ ')') (hx9 : x ≠ ' ') (hx10 : x ≠ '#')
    (hx11 : x ≠ '=') (hx12 : x ≠ '0') (hx13 : x ≠ '1')
    (hxK : x = ';' ∨ x = '\n')
    (hxN : ∀ c ∈ r.rtype.name, c ≠ x) :
    ∀ c ∈ regionLineChars fr p ru r, c ≠ x := by
  obtain ⟨_, _, _, hpairs, _⟩ := wfRegionB_props fr r hwf
  intro c hc
  rw [regionLineChars_struct] at hc
  rcases List.mem_append.1 hc with h1 | h1
  · by_cases hincl : r.incl = true
    · rw [if_pos hincl] at h1
      cases h1
    · rw [if_neg hincl] at h1
      simp only [List.mem_singleton] at h1
      subst h1
      exact fun he => hx1 he.symm
  · rcases List.mem_append.1 h1 with h2 | h2
    · exact hxN c h2
    · rcases List.mem_cons.1 h2 with h3 | h3
      · subst h3
        exact fun he => hx7 he.symm
      · rcases List.mem_append.1 h3 with h4 | h4
        · exact joinComma_coord_ne fr p ru r.rtype r.coords x hx1 hx2 hx3 hx4
            hx5 hx6 c h4
        · rcases List.mem_cons.1 h4 with h5 | h5
          · subst h5
            exact fun he => hx8 he.symm
          · by_cases hpmE : (droppedKeys r.meta).isEmpty = true
            · rw [if_pos hpmE] at h5
              cases h5
            · rw [if_neg hpmE] at h5
              rcases List.mem_cons.1 h5 with h6 | h6
              · subst h6
                exact fun he => hx9 he.symm
              rcases List.mem_cons.1 h6 with h7 | h7
              · subst h7
                exact fun he => hx10 he.symm
              rcases List.mem_cons.1 h7 with h8 | h8
              · subst h8
                exact fun he => hx9 he.symm
              rcases renderPairs_mem _ c h8 with
                h9 | h9 | h9 | h9 | h9 | ⟨kv, hkv, h9⟩ | ⟨kv, hkv, u, hu, h9⟩
              · subst h9
                exact fun he => hx11 he.symm
              · subst h9
                exact fun he => hx9 he.symm
              · subst h9
                exact fun he => hx4 he.symm
              · subst h9
                exact fun he => hx12 he.symm
              · subst h9
                exact fun he => hx13 he.symm
              · have hk : badKeyChar c = false :=
                  (hpairs kv (List.mem_filter.1 hkv).1).2.1 c h9
                rcases hxK with hx | hx
                · subst hx
                  exact (badKeyChar_props c hk).2.2.2.1
                · subst hx
                  exact (badKeyChar_props c hk).2.2.2.2.1
              · have hv : wfValB kv.2 = true :=
                  (hpairs kv (List.mem_filter.1 hkv).1).2.2
                rw [hu] at hv
                have hbv : badValChar c = false := by
                  have h10 := List.all_eq_true.1 hv c h9
                  simpa using h10
                rcases hxK with hx | hx
                · subst hx
                  exact (badValChar_props c hbv).2.1
                · subst hx
                  exact (badValChar_props c hbv).2.2.1

theorem regionLineChars_head (fr : Frame) (p : Nat) (ru : Option RadUnit)
    (r : Region) :
    ∃ c t, regionLineChars fr p ru r = c :: t ∧ c ≠ '#' ∧ lowerChar c ≠ 'g' := by
  rw [regionLineChars_struct]
  obtain ⟨c0, cs0, hname, hg0, _, _, hh0, _⟩ := rtype_name_head r.rtype
  by_cases hincl : r.incl = true
  · rw [if_pos hincl, List.nil_append, hname]
    exact ⟨c0, _, rfl, hh0, hg0⟩
  · rw [if_neg hincl]
    exact ⟨'-', _, rfl, by decide, by decide⟩

theorem regionLineChars_trim (fr : Frame) (p : Nat) (ru : Option RadUnit)
    (r : Region) (hwf : wfRegionB fr r = true) :
    trim (regionLineChars fr p ru r) = regionLineChars fr p ru r := by
  have hwfv : ∀ kv ∈ droppedKeys r.meta, wfValB kv.2 = true := by
    intro kv hm
    exact ((wfRegionB_props fr r hwf).2.2.2.1 kv (List.mem_filter.1 hm).1).2.2
  rw [regionLineChars_struct]
  by_cases hincl : r.incl = true
  · rw [if_pos hincl, List.nil_append]
    exact lineCore_trim fr p ru r.rtype r.coords (droppedKeys r.meta) hwfv
  · rw [if_neg hincl, List.singleton_append]
    have hcne : r.rtype.name ++ '(' ::
        (joinComma (mapIdxFrom (coordChars fr p ru r.rtype) 0 r.coords) ++
         ')' :: (if (droppedKeys r.meta).isEmpty then []
                 else ' ' :: '#' :: ' ' :: renderPairs (droppedKeys r.meta)))
        ≠ [] := by
      obtain ⟨c0, cs0, hname, _, _, _, _, _⟩ := rtype_name_head r.rtype
      rw [hname]
      simp
    refine trim_eq_self _ (fun c hc => ?_) (fun c hc => ?_)
    · simp only [List.head?_cons, Option.some.injEq] at hc
      rw [← hc]
      decide
    · rw [show ('-' :: (r.rtype.name ++ '(' ::
          (joinComma (mapIdxFrom (coordChars fr p ru r.rtype) 0 r.coords) ++
           ')' :: (if (droppedKeys r.meta).isEmpty then []
                   else ' ' :: '#' :: ' ' ::
                     renderPairs (droppedKeys r.meta)))))
          = ['-'] ++ (r.rtype.name ++ '(' ::
            (joinComma (mapIdxFrom (coordChars fr p ru r.rtype) 0 r.coords) ++
             ')' :: (if (droppedKeys r.meta).isEmpty then []
                     else ' ' :: '#' :: ' ' ::
                       renderPairs (droppedKeys r.meta)))) from rfl,
        List.getLast?_append_of_ne_nil _ hcne] at hc
      exact lineCore_last fr p ru r.rtype r.coords (droppedKeys r.meta) hwfv c hc

theorem frameOfChars_paren (cs : List Char) (hp : '(' ∈ cs) :
    frameOfChars cs = none := by
  unfold frameOfChars
  rw [if_neg (fun he => absurd (he ▸ hp) (by decide)),
    if_neg (fun he => absurd (he ▸ hp) (by decide)),
    if_neg (fun he => absurd (he ▸ hp) (by decide)),
    if_neg (fun he => absurd (he ▸ hp) (by decide)),
    if_neg (fun he => absurd (he ▸ hp) (by decide)),
    if_neg (fun he => absurd (he ▸ hp) (by decide)),
    if_neg (fun he => absurd (he ▸ hp) (by decide))]

theorem startsWith_cons (pc c : Char) (ps cs : List Char) :
    startsWith (pc :: ps) (c :: cs) = (decide (pc = c) && startsWith ps cs) := rfl

theorem isGlobalLine_cons (c : Char) (cs : List Char) (h : lowerChar c ≠ 'g') :
    isGlobalLine (c :: cs) = false := by
  unfold isGlobalLine
  rw [show lowerChars (c :: cs) = lowerChar c :: lowerChars cs from rfl,
    show (("global ").data) = 'g' :: ("lobal ").data from rfl,
    startsWith_cons,
    decide_eq_false (fun he => h he.symm)]
  rfl

theorem parseLineT_shape (e : ErrPolicy) (st : PState) (t : List Char)
    (c : Char) (hh : t.head? = some c) (hc : c ≠ '#')
    (hg : isGlobalLine t = false)
    (hf : frameOfChars (lowerChars t) = none)
    (hs : splitFirst ';' t = none) :
    parseLineT e st t = handleShape e st st.frame t := by
  unfold parseLineT
  rw [hh]
  show (if c = '#' then Except.ok st
    else if isGlobalLine t then
      Except.ok { st with
        globalMeta := mergeMeta st.globalMeta (parsePairs (t.drop 7)) }
    else
      match frameOfChars (lowerChars t) with
      | some fr => Except.ok { st with frame := some fr }
      | none =>
        match splitFirst ';' t with
        | some (hd, restL) =>
          match frameOfChars (lowerChars (trim hd)) with
          | some fr => handleShape e st (some fr) restL
          | none => handleShape e st st.frame t
        | none => handleShape e st st.frame t) = _
  rw [if_neg hc, if_neg (show ¬(isGlobalLine t = true) from by rw [hg]; simp),
    hf]
  show (match splitFirst ';' t with
    | some (hd, restL) =>
      match frameOfChars (lowerChars (trim hd)) with
      | some fr => handleShape e st (some fr) restL
      | none => handleShape e st st.frame t
    | none => handleShape e st st.frame t) = _
  rw [hs]

theorem handleShape_ok (e : ErrPolicy) (st : PState) (frOpt : Option Frame)
    (cs : List Char) (s : Shape)
    (h : parseShapeCore frOpt st.globalMeta cs = .ok s) :
    handleShape e st frOpt cs = .ok { st with shapes := st.shapes ++ [s] } := by
  unfold handleShape
  rw [h]

theorem parseLine_regionLine (e : ErrPolicy) (st : PState) (fr : Frame)
    (p : Nat) (ru : Option RadUnit) (r : Region)
    (hwf : wfRegionB fr r = true) (hfr : st.frame = some fr)
    (hgm : st.globalMeta = []) :
    parseLine e st (regionLineChars fr p ru r)
      = .ok { st with shapes := st.shapes ++ [shapeOfRegion fr p ru r] } := by
  have hp : '(' ∈ regionLineChars fr p ru r := by
    rw [regionLineChars_struct]
    simp
  obtain ⟨c, tl, hcons, hch, hcg⟩ := regionLineChars_head fr p ru r
  unfold parseLine
  rw [regionLineChars_trim fr p ru r hwf]
  rw [parseLineT_shape e st _ c (by rw [hcons]; rfl) hch
    (by rw [hcons]; exact isGlobalLine_cons c tl hcg)
    (frameOfChars_paren _
      ((show lowerChar '(' = '(' from by decide) ▸
        List.mem_map_of_mem lowerChar hp))
    (splitFirst_none ';' _
      (regionLineChars_ne fr p ru r hwf ';' (by decide) (by decide) (by decide)
        (by decide) (by decide) (by decide) (by decide) (by decide) (by decide)
        (by decide) (by decide) (by decide) (by decide) (Or.inl rfl)
        (fun c2 hc2 => (rtype_name_chars r.rtype c2 hc2).1)))]
  conv_lhs => rw [hfr]
  exact handleShape_ok e st (some fr) _ (shapeOfRegion fr p ru r)
    (by rw [hgm]; exact parseShapeCore_regionLine fr p ru r hwf)

theorem splitOnC_joinLines (ls : List (List Char))
    (h : ∀ l ∈ ls, ∀ c ∈ l, c ≠ '\n') :
    splitOnC '\n' (joinLines ls) = ls ++ [[]] := by
  induction ls with
  | nil => rfl
  | cons l ls2 ih =>
    show splitOnC '\n' (l ++ '\n' :: joinLines ls2) = _
    rw [splitOnC_append_cons '\n' l _ (h l (by simp)),
      ih (fun l2 h2 => h l2 (by simp [h2]))]
    rfl

theorem parseLines_cons_ok (e : ErrPolicy) (st : PState) (l : List Char)
    (ls : List (List Char)) (st2 : PState) (h : parseLine e st l = .ok st2) :
    parseLines e st (l :: ls) = parseLines e st2 ls := by
  show (match parseLine e st l with
    | .ok st3 => parseLines e st3 ls
    | .error m => .error m) = _
  rw [h]

theorem parseLine_header (e : ErrPolicy) (st : PState) :
    parseLine e st headerChars = .ok st := rfl

theorem parseLine_frameName (e : ErrPolicy) (st : PState) (fr : Frame) :
    parseLine e st fr.name = .ok { st with frame := some fr } := by
  cases fr <;> rfl

theorem frameName_no_newline (fr : Frame) : ∀ c ∈ fr.name, c ≠ '\n' := by
  cases fr <;> decide

theorem parseLines_regionLines (e : ErrPolicy) (st : PState) (fr : Frame)
    (p : Nat) (ru : Option RadUnit) (regs : List Region)
    (hwf : ∀ r ∈ regs, wfRegionB fr r = true) (hfr : st.frame = some fr)
    (hgm : st.globalMeta = []) :
    parseLines e st (regs.map (regionLineChars fr p ru) ++ [[]])
      = .ok { st with
          shapes := st.shapes ++ regs.map (shapeOfRegion fr p ru) } := by
  induction regs generalizing st with
  | nil =>
    show parseLines e st ([] :: []) = _
    have h0 : ({ st with
        shapes := st.shapes ++ List.map (shapeOfRegion fr p ru) [] } : PState)
        = st := by
      simp
    rw [h0]
    rfl
  | cons r rs ih =>
    show parseLines e st (regionLineChars fr p ru r ::
      (rs.map (regionLineChars fr p ru) ++ [[]])) = _
    rw [parseLines_cons_ok e st _ _ _
      (parseLine_regionLine e st fr p ru r (hwf r (by simp)) hfr hgm)]
    rw [ih { st with shapes := st.shapes ++ [shapeOfRegion fr p ru r] }
      (fun r2 h2 => hwf r2 (by simp [h2])) hfr hgm]
    simp

theorem parse_serializeChars (e : ErrPolicy) (fr : Frame) (p : Nat)
    (ru : Option RadUnit) (regs : List Region)
    (hwf : ∀ r ∈ regs, wfRegionB fr r = true) :
    parse e (serializeChars regs fr p ru)
      = .ok ⟨some fr, [], regs.map (shapeOfRegion fr p ru), []⟩ := by
  unfold parse serializeChars
  rw [show headerChars ++ '\n' :: fr.name ++ '\n' ::
      joinLines (regs.map (regionLineChars fr p ru))
      = headerChars ++ '\n' :: (fr.name ++ '\n' ::
        joinLines (regs.map (regionLineChars fr p ru))) from by simp]
  rw [splitOnC_append_cons '\n' headerChars _ (by decide)]
  rw [splitOnC_append_cons '\n' fr.name _ (frameName_no_newline fr)]
  rw [splitOnC_joinLines _ (fun l hl => by
    obtain ⟨r, hr, he⟩ := List.mem_map.1 hl
    rw [← he]
    exact regionLineChars_ne fr p ru r (hwf r hr) '\n' (by decide) (by decide)
      (by decide) (by decide) (by decide) (by decide) (by decide) (by decide)
      (by decide) (by decide) (by decide) (by decide) (by decide)
      (Or.inr rfl)
      (fun c2 hc2 => (rtype_name_chars r.rtype c2 hc2).2.1))]
  rw [parseLines_cons_ok e initState _ _ initState (parseLine_header e _)]
  rw [parseLines_cons_ok e initState _ _ ⟨some fr, [], [], []⟩
    (parseLine_frameName e initState fr)]
  rw [parseLines_regionLines e ⟨some fr, [], [], []⟩ fr p ru regs hwf rfl rfl]
  rfl

theorem metaLookup_map_reVal (k : List Char) (m : Meta) :
    metaLookup k (m.map (fun kv => (kv.1, reVal kv.2)))
      = (metaLookup k m).map reVal := by
  induction m with
  | nil => rfl
  | cons kv m ih =>
    show (if kv.1 = k then some (reVal kv.2)
        else metaLookup k (m.map (fun kv2 => (kv2.1, reVal kv2.2))))
      = (if kv.1 = k then some kv.2 else metaLookup k m).map reVal
    by_cases hk : kv.1 = k
    · rw [if_pos hk, if_pos hk]
      rfl
    · rw [if_neg hk, if_neg hk]
      exact ih

theorem metaLookup_droppedKeys (k : List Char) (m : Meta) (hk : k ≠ inclKey) :
    metaLookup k (droppedKeys m) = metaLookup k m := by
  induction m with
  | nil => rfl
  | cons kv m ih =>
    by_cases hi : kv.1 = inclKey
    · rw [show droppedKeys (kv :: m) = droppedKeys m from by
        unfold droppedKeys
        rw [List.filter_cons_of_neg (by simpa using hi)]]
      rw [ih]
      show _ = (if kv.1 = k then some kv.2 else metaLookup k m)
      rw [if_neg (fun he => hk (by rw [← he]; exact hi))]
    · rw [show droppedKeys (kv :: m) = kv :: droppedKeys m from by
        unfold droppedKeys
        rw [List.filter_cons_of_pos (by simpa using hi)]]
      show (if kv.1 = k then some kv.2 else metaLookup k (droppedKeys m))
        = (if kv.1 = k then some kv.2 else metaLookup k m)
      by_cases hke : kv.1 = k
      · rw [if_pos hke, if_pos hke]
      · rw [if_neg hke, if_neg hke, ih]

theorem updateMeta_lookup_self (m : Meta) (k : List Char) (v : MetaVal)
    (h : metaLookup k m = some v) (hnd : (m.map Prod.fst).Nodup) :
    updateMeta m k v = m := by
  induction m with
  | nil => cases h
  | cons kv m ih =>
    simp only [List.map_cons, List.nodup_cons] at hnd
    by_cases hk : kv.1 = k
    · have hv : v = kv.2 := by
        rw [show metaLookup k (kv :: m)
            = if kv.1 = k then some kv.2 else metaLookup k m from rfl,
          if_pos hk] at h
        injection h with h
        exact h.symm
      subst hv
      unfold updateMeta
      rw [if_pos (by
        simp only [List.any_cons]
        rw [show (decide (kv.1 = k)) = true from by simp [hk]]
        rfl)]
      simp only [List.map_cons]
      rw [if_pos hk]
      have hmap : m.map (fun kv2 => if kv2.1 = k then (k, kv.2) else kv2)
          = m := by
        have h2 : ∀ kv2 ∈ m,
            (if kv2.1 = k then (k, kv.2) else kv2) = id kv2 := by
          intro kv2 hm
          rw [if_neg (fun he => hnd.1
            (by rw [hk, ← he]; exact List.mem_map_of_mem Prod.fst hm))]
          rfl
        rw [List.map_congr_left h2, List.map_id]
      rw [hmap, ← hk]
    · have h2 : metaLookup k m = some v := by
        rw [show metaLookup k (kv :: m)
            = if kv.1 = k then some kv.2 else metaLookup k m from rfl,
          if_neg hk] at h
        exact h
      rw [updateMeta_cons_ne kv.1 kv.2 m k v (fun he => hk he.symm)]
      rw [ih h2 hnd.2]

theorem reparsedMeta_keys (m : Meta) :
    (reparsedMeta m).map Prod.fst = (droppedKeys m).map Prod.fst := by
  unfold reparsedMeta
  rw [List.map_map]
  rfl

theorem droppedKeys_nodup (m : Meta) (h : (m.map Prod.fst).Nodup) :
    ((droppedKeys m).map Prod.fst).Nodup :=
  h.sublist (List.Sublist.map Prod.fst (List.filter_sublist m))

theorem reparsedMeta_nodup (m : Meta) (h : (m.map Prod.fst).Nodup) :
    ((reparsedMeta m).map Prod.fst).Nodup := by
  rw [reparsedMeta_keys]
  exact droppedKeys_nodup m h

theorem reparsedMeta_keys_ne_incl (m : Meta) :
    ∀ kv ∈ reparsedMeta m, kv.1 ≠ inclKey := by
  intro kv hm
  unfold reparsedMeta at hm
  obtain ⟨kv2, hm2, he⟩ := List.mem_map.1 hm
  rw [← he]
  show kv2.1 ≠ inclKey
  have h2 := (List.mem_filter.1 hm2).2
  simpa using h2

theorem mirrorTextLabel_reparsed (r : Region) (fr : Frame)
    (hwf : wfRegionB fr r = true) :
    mirrorTextLabel (reparsedMeta r.meta) = reparsedMeta r.meta := by
  obtain ⟨_, _, hnd, _, htl⟩ := wfRegionB_props fr r hwf
  unfold mirrorTextLabel
  cases ht : metaLookup textKey (reparsedMeta r.meta) with
  | none => rfl
  | some v =>
    rw [show reparsedMeta r.meta
        = (droppedKeys r.meta).map (fun kv => (kv.1, reVal kv.2)) from rfl,
      metaLookup_map_reVal] at ht
    cases hw : metaLookup textKey (droppedKeys r.meta) with
    | none =>
      rw [hw] at ht
      cases ht
    | some w =>
      rw [hw] at ht
      injection ht with ht
      have hw2 : metaLookup textKey r.meta = some w := by
        rw [← metaLookup_droppedKeys textKey r.meta (by decide)]
        exact hw
      have hl3 : metaLookup labelKey (droppedKeys r.meta) = some w := by
        rw [metaLookup_droppedKeys labelKey r.meta (by decide)]
        exact htl w hw2
      have hl4 : metaLookup labelKey (reparsedMeta r.meta) = some v := by
        rw [show reparsedMeta r.meta
            = (droppedKeys r.meta).map (fun kv => (kv.1, reVal kv.2)) from rfl,
          metaLookup_map_reVal, hl3, ← ht]
        rfl
      exact updateMeta_lookup_self _ labelKey v hl4
        (reparsedMeta_nodup _ hnd)

theorem renderValue_reVal (v : MetaVal) :
    renderValue (reVal v) = renderValue v := by
  cases v with
  | str s => rfl
  | bool b => cases b <;> rfl

theorem renderPairs_map_reVal (m : Meta) :
    renderPairs (m.map (fun kv => (kv.1, reVal kv.2))) = renderPairs m := by
  induction m with
  | nil => rfl
  | cons kv m2 ih =>
    cases m2 with
    | nil =>
      show kv.1 ++ '=' :: renderValue (reVal kv.2)
        = kv.1 ++ '=' :: renderValue kv.2
      rw [renderValue_reVal]
    | cons kv2 m3 =>
      show kv.1 ++ '=' :: renderValue (reVal kv.2) ++ ' ' ::
          renderPairs ((kv2 :: m3).map (fun kv3 => (kv3.1, reVal kv3.2)))
        = kv.1 ++ '=' :: renderValue kv.2 ++ ' ' :: renderPairs (kv2 :: m3)
      rw [renderValue_reVal, ih]

theorem coordChars_roundCoord (fr : Frame) (p : Nat) (ru : Option RadUnit)
    (rt : RegionType) (i : Nat) (q : ℚ) :
    coordChars fr p ru rt i (roundCoord fr p ru rt i q)
      = coordChars fr p ru rt i q := by
  by_cases hsr : (fr.isSky && isRadiusArg rt i) = true
  · rcases ru with _ | _ | _
    · have h1 : roundCoord fr p none rt i q = roundFix q p := by
        unfold roundCoord
        rw [if_pos hsr]
      rw [h1]
      unfold coordChars
      rw [if_pos hsr, if_pos hsr]
      show fmtFixed (roundFix q p) p = fmtFixed q p
      exact fmtFixed_roundFix q p
    · have h1 : roundCoord fr p (some .arcsec) rt i q
          = roundFix (q * 3600) p / 3600 := by
        unfold roundCoord
        rw [if_pos hsr]
      rw [h1]
      unfold coordChars
      rw [if_pos hsr, if_pos hsr]
      show fmtFixed (roundFix (q * 3600) p / 3600 * 3600) p ++ [quoteChar]
        = fmtFixed (q * 3600) p ++ [quoteChar]
      rw [div_mul_cancel₀ _ (show ((3600:ℚ)) ≠ 0 by norm_num),
        fmtFixed_roundFix]
    · have h1 : roundCoord fr p (some .arcmin) rt i q
          = roundFix (q * 60) p / 60 := by
        unfold roundCoord
        rw [if_pos hsr]
      rw [h1]
      unfold coordChars
      rw [if_pos hsr, if_pos hsr]
      show fmtFixed (roundFix (q * 60) p / 60 * 60) p ++ [arcminChar]
        = fmtFixed (q * 60) p ++ [arcminChar]
      rw [div_mul_cancel₀ _ (show ((60:ℚ)) ≠ 0 by norm_num),
        fmtFixed_roundFix]
  · have h1 : roundCoord fr p ru rt i q = roundFix q p := by
      unfold roundCoord
      rw [if_neg hsr]
    rw [h1]
    unfold coordChars
    rw [if_neg hsr, if_neg hsr]
    exact fmtFixed_roundFix q p

theorem mapIdxFrom_mapIdxC (f : Nat → ℚ → List Char) (g : Nat → ℚ → ℚ)
    (i : Nat) (qs : List ℚ) (h : ∀ j q, f j (g j q) = f j q) :
    mapIdxFrom f i (mapIdxC g i qs) = mapIdxFrom f i qs := by
  induction qs generalizing i with
  | nil => rfl
  | cons q qs ih =>
    show f i (g i q) :: mapIdxFrom f (i + 1) (mapIdxC g (i + 1) qs) = _
    rw [h i q, ih (i + 1)]
    rfl

theorem toRegion_sky (s : Shape) (cs : List ℚ)
    (hsky : s.coordsys.isSky = true)
    (hm : s.coord.mapM Quantity.toDeg = some cs) :
    s.toRegion
      = some ⟨s.regionType, s.coordsys, cs, mirrorTextLabel s.meta, s.incl⟩ := by
  unfold Shape.toRegion
  rw [if_pos hsky, hm]
  rfl

theorem toRegion_pix (s : Shape) (cs : List ℚ)
    (hsky : s.coordsys.isSky = false)
    (hm : s.coord.mapM Quantity.toPix = some cs) :
    s.toRegion
      = some ⟨s.regionType, s.coordsys, cs, mirrorTextLabel s.meta, s.incl⟩ := by
  unfold Shape.toRegion
  rw [if_neg (show ¬(s.coordsys.isSky = true) from by rw [hsky]; simp), hm]
  rfl

theorem toRegion_shapeOfRegion (fr : Frame) (p : Nat) (ru : Option RadUnit)
    (r : Region) (hwf : wfRegionB fr r = true) :
    (shapeOfRegion fr p ru r).toRegion = some (roundRegion fr p ru r) := by
  obtain ⟨_, _, hnd, _, _⟩ := wfRegionB_props fr r hwf
  have hmm : mergeMeta [] (reparsedMeta r.meta) = reparsedMeta r.meta :=
    mergeMeta_nil_left _ (reparsedMeta_nodup _ hnd)
  have hinclE : (if r.incl then none else some (false : Bool)).getD
      (metaIncl (reparsedMeta r.meta)) = r.incl := by
    by_cases hincl : r.incl = true
    · rw [if_pos hincl, hincl]
      show metaIncl (reparsedMeta r.meta) = true
      unfold metaIncl
      rw [metaLookup_eq_none (reparsedMeta r.meta) inclKey
        (reparsedMeta_keys_ne_incl r.meta)]
    · rw [if_neg hincl]
      show false = r.incl
      cases hr : r.incl
      · rfl
      · exact absurd hr hincl
  by_cases hsky : fr.isSky = true
  · rw [toRegion_sky (shapeOfRegion fr p ru r)
      (mapIdxC (roundCoord fr p ru r.rtype) 0 r.coords)
      (show (shapeOfRegion fr p ru r).coordsys.isSky = true from by
        rw [show (shapeOfRegion fr p ru r).coordsys = fr from rfl]
        exact hsky)
      (by
        rw [show (shapeOfRegion fr p ru r).coord
            = mapIdxQ (reQuantity fr p ru r.rtype) 0 r.coords from rfl]
        exact mapM_toDeg_reQ fr p ru r.rtype hsky 0 r.coords)]
    rw [show (shapeOfRegion fr p ru r).meta
        = mergeMeta [] (reparsedMeta r.meta) from rfl,
      show (shapeOfRegion fr p ru r).incl
        = (if r.incl then none else some (false : Bool)).getD
            (metaIncl (mergeMeta [] (reparsedMeta r.meta))) from rfl,
      hmm, hinclE,
      show (shapeOfRegion fr p ru r).regionType = r.rtype from rfl,
      show (shapeOfRegion fr p ru r).coordsys = fr from rfl]
    rfl
  · have hsky2 : fr.isSky = false := by
      cases hs : fr.isSky
      · rfl
      · exact absurd hs hsky
    rw [toRegion_pix (shapeOfRegion fr p ru r)
      (mapIdxC (roundCoord fr p ru r.rtype) 0 r.coords)
      (show (shapeOfRegion fr p ru r).coordsys.isSky = false from by
        rw [show (shapeOfRegion fr p ru r).coordsys = fr from rfl]
        exact hsky2)
      (by
        rw [show (shapeOfRegion fr p ru r).coord
            = mapIdxQ (reQuantity fr p ru r.rtype) 0 r.coords from rfl]
        exact mapM_toPix_reQ fr p ru r.rtype hsky2 0 r.coords)]
    rw [show (shapeOfRegion fr p ru r).meta
        = mergeMeta [] (reparsedMeta r.meta) from rfl,
      show (shapeOfRegion fr p ru r).incl
        = (if r.incl then none else some (false : Bool)).getD
            (metaIncl (mergeMeta [] (reparsedMeta r.meta))) from rfl,
      hmm, hinclE,
      show (shapeOfRegion fr p ru r).regionType = r.rtype from rfl,
      show (shapeOfRegion fr p ru r).coordsys = fr from rfl]
    rfl

theorem toRegions_shapeOfRegion (fr : Frame) (p : Nat) (ru : Option RadUnit)
    (regs : List Region) (hwf : ∀ r ∈ regs, wfRegionB fr r = true) :
    toRegions (regs.map (shapeOfRegion fr p ru))
      = regs.map (roundRegion fr p ru) := by
  induction regs with
  | nil => rfl
  | cons r rs ih =>
    show toRegions (shapeOfRegion fr p ru r ::
      rs.map (shapeOfRegion fr p ru)) = _
    unfold toRegions
    rw [List.filterMap_cons, toRegion_shapeOfRegion fr p ru r (hwf r (by simp))]
    show roundRegion fr p ru r :: toRegions (rs.map (shapeOfRegion fr p ru)) = _
    rw [ih (fun r2 h2 => hwf r2 (by simp [h2]))]
    rfl

theorem regionLineChars_roundRegion (fr : Frame) (p : Nat)
    (ru : Option RadUnit) (r : Region) (hwf : wfRegionB fr r = true) :
    regionLineChars fr p ru (roundRegion fr p ru r)
      = regionLineChars fr p ru r := by
  rw [regionLineChars_struct, regionLineChars_struct]
  rw [show (roundRegion fr p ru r).rtype = r.rtype from rfl,
    show (roundRegion fr p ru r).incl = r.incl from rfl,
    show (roundRegion fr p ru r).coords
      = mapIdxC (roundCoord fr p ru r.rtype) 0 r.coords from rfl,
    show (roundRegion fr p ru r).meta
      = mirrorTextLabel (reparsedMeta r.meta) from rfl]
  rw [mirrorTextLabel_reparsed r fr hwf]
  rw [mapIdxFrom_mapIdxC _ _ 0 r.coords
    (fun j q => coordChars_roundCoord fr p ru r.rtype j q)]
  rw [show droppedKeys (reparsedMeta r.meta) = reparsedMeta r.meta from
    List.filter_eq_self.2
      (fun kv hm => by simpa using reparsedMeta_keys_ne_incl r.meta kv hm)]
  rw [show reparsedMeta r.meta
      = (droppedKeys r.meta).map (fun kv => (kv.1, reVal kv.2)) from rfl]
  rw [renderPairs_map_reVal (droppedKeys r.meta)]
  rw [show ((droppedKeys r.meta).map
      (fun kv => (kv.1, reVal kv.2))).isEmpty = (droppedKeys r.meta).isEmpty
    from by cases droppedKeys r.meta <;> rfl]

theorem serializeChars_roundRegions (fr : Frame) (p : Nat)
    (ru : Option RadUnit) (regs : List Region)
    (hwf : ∀ r ∈ regs, wfRegionB fr r = true) :
    serializeChars (regs.map (roundRegion fr p ru)) fr p ru
      = serializeChars regs fr p ru := by
  unfold serializeChars
  rw [List.map_map]
  refine congrArg
    (fun ls => headerChars ++ '\n' :: fr.name ++ '\n' :: joinLines ls) ?_
  exact List.map_congr_left
    (fun r hr => regionLineChars_roundRegion fr p ru r (hwf r hr))

/-- Claim C8: serialization is correct up to metadata ordering — for every
serializable region list, the serialized document parses successfully, and
serializing the parsed-then-serialized result again yields the identical
text; in particular, splitting both outputs into lines and tokenizing each
line by whitespace gives pairwise equal token lists (hence equal sets). -/
theorem claim_C8 :
    ∀ (e : ErrPolicy) (fr : Frame) (p : Nat) (ru : Option RadUnit)
      (regs : List Region),
      (∀ r ∈ regs, wfRegionB fr r = true) →
      parseOkC e (serializeChars regs fr p ru) = true ∧
      reserialize e fr p ru (serializeChars regs fr p ru)
        = serializeChars regs fr p ru ∧
      (splitOnC '\n' (reserialize e fr p ru
          (serializeChars regs fr p ru))).map wsTokens
        = (splitOnC '\n' (serializeChars regs fr p ru)).map wsTokens := by
  intro e fr p ru regs hwf
  have hparse := parse_serializeChars e fr p ru regs hwf
  have hsh : shapesOfC e (serializeChars regs fr p ru)
      = regs.map (shapeOfRegion fr p ru) := by
    unfold shapesOfC
    rw [hparse]
  have hre : reserialize e fr p ru (serializeChars regs fr p ru)
      = serializeChars regs fr p ru := by
    unfold reserialize
    rw [hsh, toRegions_shapeOfRegion fr p ru regs hwf,
      serializeChars_roundRegions fr p ru regs hwf]
  refine ⟨?_, hre, by rw [hre]⟩
  unfold parseOkC
  rw [hparse]

/-- Witness for C8: a concrete two-region fk5 list (a circle with
`color=green` metadata and an excluded ellipse) satisfies the
well-formedness hypothesis, and the parse-reserialize round trip at `.4f`
precision reproduces the serialized text. -/
theorem claim_C8_witness :
    (∀ r ∈ c8regs, wfRegionB .fk5 r = true) ∧
    parseOkC .warn (serializeChars c8regs .fk5 4 none) = true ∧
    reserialize .warn .fk5 4 none (serializeChars c8regs .fk5 4 none)
      = serializeChars c8regs .fk5 4 none :=
  ⟨by with_unfolding_all decide,
   (claim_C8 .warn .fk5 4 none c8regs (by with_unfolding_all decide)).1,
   (claim_C8 .warn .fk5 4 none c8regs (by with_unfolding_all decide)).2.1⟩

end DS9
